import Mathlib

/-!
Verification of the discord-opencode-bridge core against its specification.

The development shallowly embeds the two specified components:

* the message chunking engine (`src/utils/chunker.ts`), and
* the session lifecycle manager (`src/services/session-manager.ts`).

JavaScript strings are modelled as `List Char`; JavaScript numbers used as
indices and lengths are modelled as `Int` (so that the negative index
arithmetic of `slice` / `lastIndexOf` is reproduced exactly).  Loops of the
source that are not structurally terminating are given an explicit fuel
parameter and return `Option`: `none` means the loop did not finish within
the given fuel, and a result `some l` is the value the JavaScript code
returns whenever it terminates at all.
-/

set_option linter.unusedVariables false

namespace Bridge

/-- Characters of a JavaScript string, modelled as a list of characters. -/
abbrev Str := List Char

/-- The backtick character, U+0060. -/
def btChar : Char := Char.ofNat 96

/-- The newline character. -/
def nlChar : Char := Char.ofNat 10

/-- The triple-backtick fence marker. -/
def fence3 : Str := [btChar, btChar, btChar]

/-- Whitespace characters of this model of JavaScript `trim` (the ASCII
whitespace characters; the source data only ever contains these). -/
def isWsChar (c : Char) : Bool :=
  c = ' ' || c = Char.ofNat 9 || c = nlChar || c = Char.ofNat 13 ||
    c = Char.ofNat 11 || c = Char.ofNat 12

/-- JavaScript `s.trimStart()`. -/
def trimStart (s : Str) : Str := s.dropWhile isWsChar

/-- JavaScript `s.trimEnd()`. -/
def trimEnd (s : Str) : Str := (s.reverse.dropWhile isWsChar).reverse

/-- JavaScript `s.trim()`. -/
def trim (s : Str) : Str := trimEnd (trimStart s)

/-- Clamp a JavaScript slice index into `[0, len]`, resolving a negative
index relative to the end of the string (ECMAScript `String.prototype.slice`
semantics). -/
def sliceIdx (len : Nat) (i : Int) : Nat :=
  if i < 0 then ((len : Int) + i).toNat else min i.toNat len

/-- JavaScript `s.slice(a, b)`. -/
def jsSlice (s : Str) (a b : Int) : Str :=
  (s.take (sliceIdx s.length b)).drop (sliceIdx s.length a)

/-- JavaScript `s.slice(a)`. -/
def jsSliceFrom (s : Str) (a : Int) : Str :=
  s.drop (sliceIdx s.length a)

/-- The pattern `p` occurs in `s` starting at index `i` (boolean form). -/
def occursAtB (s p : Str) (i : Nat) : Bool := p.isPrefixOf (s.drop i)

/-- JavaScript `s.lastIndexOf(p, fromIdx)`: the largest index `i` with
`i ≤ clamp(fromIdx, 0, s.length)` at which `p` occurs in `s`, and `-1`
when there is none. -/
def jsLastIndexOfFrom (s p : Str) (fromIdx : Int) : Int :=
  let bound : Nat := min fromIdx.toNat s.length
  match ((List.range (bound + 1)).filter (fun i => occursAtB s p i)).getLast? with
  | some i => (i : Int)
  | none => -1

/-- JavaScript `s.lastIndexOf(p)` (searches the whole string). -/
def jsLastIndexOf (s p : Str) : Int := jsLastIndexOfFrom s p s.length

/-- The sentence-ending patterns of `findLastSentenceEnd` in
`src/utils/chunker.ts` (each with offset 2 in the source). -/
def sentencePatterns : List Str :=
  [['.', ' '], ['!', ' '], ['?', ' '],
   ['.', nlChar], ['!', nlChar], ['?', nlChar],
   ['.', btChar], ['.', '"']]

/-- `findLastSentenceEnd` from `src/utils/chunker.ts`: fold over the
patterns, keeping `index + 2` of any pattern whose raw index beats the
accumulator. -/
def findLastSentenceEnd (text : Str) : Int :=
  sentencePatterns.foldl
    (fun lastEnd pat =>
      let index := jsLastIndexOf text pat
      if index > lastEnd then index + 2 else lastEnd)
    (-1)

/-- `findBestSplitPoint` from `src/utils/chunker.ts`.  The JavaScript
thresholds `maxLength * 0.3` and `maxLength * 0.4` are modelled as the exact
rationals `3 * maxLength / 10` and `4 * maxLength / 10`, compared by
cross-multiplication. -/
def findBestSplitPoint (text : Str) (maxLength : Int) : Int :=
  let searchText := jsSlice text 0 maxLength
  let paragraphBreak := jsLastIndexOf searchText [nlChar, nlChar]
  if paragraphBreak * 10 > maxLength * 3 then paragraphBreak + 2
  else
    let sentenceEnd := findLastSentenceEnd searchText
    if sentenceEnd * 10 > maxLength * 4 then sentenceEnd
    else
      let newline := jsLastIndexOf searchText [nlChar]
      if newline * 10 > maxLength * 3 then newline + 1
      else
        let space := jsLastIndexOf searchText [' ']
        if space * 10 > maxLength * 3 then space + 1
        else maxLength

/-- The loop of `chunkPlainText` from `src/utils/chunker.ts`, with fuel. -/
def chunkPlainTextAux : Nat → Str → Int → List Str → Option (List Str)
  | 0, _, _, _ => none
  | fuel + 1, remaining, maxLength, chunks =>
    if remaining.length = 0 then some chunks
    else if (remaining.length : Int) ≤ maxLength then some (chunks ++ [trim remaining])
    else
      let splitAt := findBestSplitPoint remaining maxLength
      chunkPlainTextAux fuel (trim (jsSliceFrom remaining splitAt)) maxLength
        (chunks ++ [trim (jsSlice remaining 0 splitAt)])

/-- `chunkPlainText` from `src/utils/chunker.ts` (loop plus the final
filter dropping empty chunks). -/
def chunkPlainText (fuel : Nat) (text : Str) (maxLength : Int) : Option (List Str) :=
  (chunkPlainTextAux fuel text maxLength []).map (fun cs => cs.filter (fun c => !c.isEmpty))

/-- `wrapCodeBlock` from `src/utils/chunker.ts`. -/
def wrapCodeBlock (content language : Str) : Str :=
  fence3 ++ language ++ [nlChar] ++ content ++ [nlChar] ++ fence3

/-- The loop of `wrapLongLine` from `src/utils/chunker.ts`, with fuel. -/
def wrapLongLineAux : Nat → Str → Int → List Str → Option (List Str)
  | 0, _, _, _ => none
  | fuel + 1, remaining, maxLength, parts =>
    if (remaining.length : Int) > maxLength then
      let splitAt0 := jsLastIndexOfFrom remaining [' '] maxLength
      let splitAt := if splitAt0 ≤ 0 then maxLength else splitAt0
      wrapLongLineAux fuel (trimStart (jsSliceFrom remaining splitAt)) maxLength
        (parts ++ [jsSlice remaining 0 splitAt])
    else some (if remaining.length ≠ 0 then parts ++ [remaining] else parts)

/-- `wrapLongLine` from `src/utils/chunker.ts`. -/
def wrapLongLine (fuel : Nat) (line : Str) (maxLength : Int) : Option (List Str) :=
  wrapLongLineAux fuel line maxLength []

/-- A word character in the sense of the JavaScript regex class. -/
def isWordChar (c : Char) : Bool :=
  ('a' ≤ c && c ≤ 'z') || ('A' ≤ c && c ≤ 'Z') || ('0' ≤ c && c ≤ '9') || c = '_'

/-- The anchored regex of `splitLongCodeBlock` matching a code block and
extracting its language tag and inner content: the block must start with a
fence, the language tag is the maximal run of word characters after it, one
following newline is absorbed, and the remainder must end with the closing
fence (which is stripped off the content). -/
def jsCodeBlockMatch (s : Str) : Option (Str × Str) :=
  if fence3.isPrefixOf s then
    let r := s.drop 3
    let language := r.takeWhile isWordChar
    let r2 := r.drop language.length
    let r3 := match r2 with
      | c :: rest => if c = nlChar then rest else r2
      | [] => r2
    if fence3.isSuffixOf r3 then some (language, r3.take (r3.length - 3))
    else none
  else none

/-- The line-packing loop of `splitLongCodeBlock` from
`src/utils/chunker.ts`, with fuel (used by the inner `wrapLongLine`). -/
def splitCodeCore (fuel : Nat) (language : Str) (contentMax : Int) :
    List Str → Str → List Str → Option (List Str)
  | [], currentContent, chunks =>
    some (if currentContent.length ≠ 0 then chunks ++ [wrapCodeBlock currentContent language]
          else chunks)
  | line :: rest, currentContent, chunks =>
    if (line.length : Int) > contentMax then
      let chunks1 := if currentContent.length ≠ 0 then
          chunks ++ [wrapCodeBlock currentContent language]
        else chunks
      match wrapLongLineAux fuel line contentMax [] with
      | none => none
      | some wrapped =>
        splitCodeCore fuel language contentMax rest []
          (chunks1 ++ wrapped.map (fun w => wrapCodeBlock w language))
    else
      let newLength := (currentContent.length : Int) + line.length + 1
      if newLength > contentMax then
        splitCodeCore fuel language contentMax rest line
          (chunks ++ [wrapCodeBlock currentContent language])
      else
        splitCodeCore fuel language contentMax rest
          (currentContent ++ (if currentContent.length ≠ 0 then [nlChar] else []) ++ line)
          chunks

/-- `splitLongCodeBlock` from `src/utils/chunker.ts`. -/
def splitLongCodeBlock (fuel : Nat) (codeBlock : Str) (maxLength : Int) :
    Option (List Str) :=
  match jsCodeBlockMatch codeBlock with
  | none => chunkPlainText fuel codeBlock maxLength
  | some (language, content) =>
    let overhead : Int := 6 + language.length + 2
    let contentMax := maxLength - overhead
    splitCodeCore fuel language contentMax (content.splitOn nlChar) [] []

/-- The first index at which the fence marker occurs, if any. -/
def findFence : Str → Option Nat
  | [] => none
  | c :: rest =>
    if fence3.isPrefixOf (c :: rest) then some 0 else (findFence rest).map (· + 1)

/-- The first index `≥ k` at which the fence marker occurs. -/
def findFenceFrom (s : Str) (k : Nat) : Option Nat :=
  (findFence (s.drop k)).map (· + k)

/-- JavaScript `text.includes(fence)`. -/
def containsFence (s : Str) : Bool := (findFence s).isSome

/-- The scanning loop of `splitByCodeBlocks`, structurally recursive on a
step counter (each regex match consumes at least 6 characters, so a counter
of `s.length` never runs out; the counter-exhausted case coincides with the
no-match case and is only reachable on the empty string). -/
def splitByCodeBlocksAux : Nat → Str → List Str
  | 0, s => if s.length ≠ 0 then [s] else []
  | n + 1, s =>
    match findFence s with
    | none => if s.length ≠ 0 then [s] else []
    | some i =>
      match findFenceFrom s (i + 3) with
      | none => if s.length ≠ 0 then [s] else []
      | some j =>
        (if 0 < i then [s.take i] else []) ++ [jsSlice s (i : Int) ((j : Int) + 3)] ++
          splitByCodeBlocksAux n (s.drop (j + 3))

/-- `splitByCodeBlocks` from `src/utils/chunker.ts`: the global regex
scan producing the alternating prose and fenced segments.  A lazy match
runs from the first fence occurrence to the end of the next fence
occurrence at least 3 positions later. -/
def splitByCodeBlocks (s : Str) : List Str := splitByCodeBlocksAux s.length s

/-- The segment-packing loop of `chunkWithCodeBlocks` from
`src/utils/chunker.ts`, with fuel. -/
def chunkWithCodeBlocksAux (fuel : Nat) (maxLength : Int) :
    List Str → Str → List Str → Option (List Str)
  | [], currentChunk, chunks =>
    some (if (trim currentChunk).length ≠ 0 then chunks ++ [trim currentChunk] else chunks)
  | seg :: rest, currentChunk, chunks =>
    if (seg.length : Int) > maxLength then
      let chunks1 := if currentChunk.length ≠ 0 then chunks ++ [trim currentChunk] else chunks
      match (if fence3.isPrefixOf seg then splitLongCodeBlock fuel seg maxLength
             else chunkPlainText fuel seg maxLength) with
      | none => none
      | some sub => chunkWithCodeBlocksAux fuel maxLength rest [] (chunks1 ++ sub)
    else if (currentChunk.length : Int) + seg.length > maxLength then
      chunkWithCodeBlocksAux fuel maxLength rest seg (chunks ++ [trim currentChunk])
    else
      chunkWithCodeBlocksAux fuel maxLength rest (currentChunk ++ seg) chunks

/-- `chunkWithCodeBlocks` from `src/utils/chunker.ts`. -/
def chunkWithCodeBlocks (fuel : Nat) (text : Str) (maxLength : Int) : Option (List Str) :=
  (chunkWithCodeBlocksAux fuel maxLength (splitByCodeBlocks text) [] []).map
    (fun cs => cs.filter (fun c => !c.isEmpty))

/-- `chunkMessage` from `src/utils/chunker.ts`, the chunking entry point. -/
def chunkMessage (fuel : Nat) (text : Str) (maxLength : Int) : Option (List Str) :=
  if (text.length : Int) ≤ maxLength then some [text]
  else if containsFence text then chunkWithCodeBlocks fuel text maxLength
  else chunkPlainText fuel text maxLength

/-! ## Session lifecycle manager

Shallow embedding of `src/services/session-manager.ts`.  The manager's
`Map` of sessions is an association list; `Date` timestamps are abstract
`Nat` ticks supplied by the caller.  JavaScript objects are mutable and the
map stores references, so each session value carries an identity `tag`:
a field mutation through a stale reference only reaches the map when the
entry currently stored under the channel still has the same tag.

The OpenCode HTTP client is the external collaborator; it is modelled as an
oracle giving the outcome of the n-th backend call of each kind made by one
manager operation. -/

/-- The error classification the manager observes on a failed backend call:
an `OpenCodeClientError` carrying an optional HTTP status, or any other
thrown error. -/
inductive BackendErr where
  | clientError (statusCode : Option Nat)
  | otherError
  deriving DecidableEq, Repr

/-- One backend call issued by the manager, recorded in a trace. -/
inductive BCall where
  | create (title : Str)
  | send (sessionId message : Str)
  | del (sessionId : Str)
  deriving DecidableEq, Repr

/-- Oracle describing the backend's behaviour during one manager
operation: the outcome of the n-th create call and of the n-th send call
(as a function of the arguments), and of the n-th delete call. -/
structure Backend where
  createRes : Nat → Except BackendErr Str
  sendRes : Nat → Str → Str → Except BackendErr Str
  deleteRes : Nat → Except BackendErr Unit

/-- `ChannelSession` from `src/services/session-manager.ts`, plus an
object-identity tag (see module comment). -/
structure Session where
  tag : Nat
  channelId : Str
  sessionId : Str
  projectPath : Str
  channelName : Str
  createdAt : Nat
  lastActivity : Nat
  messageCount : Nat
  isProcessing : Bool
  deriving DecidableEq, Repr

/-- The manager's state: the session map (association list in insertion
order, like a JavaScript `Map`), the configured default project path, and
the next fresh object tag. -/
structure SMState where
  sessions : List (Str × Session)
  defaultProjectPath : Str
  nextTag : Nat
  deriving DecidableEq, Repr

/-- `Map.get` on the session map. -/
def mapGet (m : List (Str × Session)) (k : Str) : Option Session :=
  match m.find? (fun e => e.1 = k) with
  | some e => some e.2
  | none => none

/-- `Map.set` on the session map: replace in place if the key is present,
append otherwise. -/
def mapSet (m : List (Str × Session)) (k : Str) (v : Session) : List (Str × Session) :=
  if m.any (fun e => e.1 = k) then m.map (fun e => if e.1 = k then (k, v) else e)
  else m ++ [(k, v)]

/-- `Map.delete` on the session map. -/
def mapDel (m : List (Str × Session)) (k : Str) : List (Str × Session) :=
  m.filter (fun e => !(e.1 = k : Bool))

/-- Write a field mutation made through an object reference back into the
map: it takes effect only if the entry stored under the channel is still
the same object (same tag). -/
def mutateObj (st : SMState) (ch : Str) (tg : Nat) (f : Session → Session) : SMState :=
  match mapGet st.sessions ch with
  | some s => if s.tag = tg then { st with sessions := mapSet st.sessions ch (f s) } else st
  | none => st

/-- Case-insensitive comparison with an ASCII pattern. -/
def charEqCI (a b : Char) : Bool := a.toLower = b.toLower

/-- Strip one of the recognised channel-name prefixes (tried in the
alternation order of the source regex), then one optional dash. -/
def stripNamePat (name : Str) : Option Str :=
  let tryPat := fun (pat : Str) (s : Str) =>
    if (s.take pat.length).length = pat.length &&
        ((s.take pat.length).zip pat).all (fun p => charEqCI p.1 p.2) then
      some (s.drop pat.length)
    else none
  let afterAlt :=
    match tryPat ("opencode".toList) name with
    | some r => some r
    | none =>
      match tryPat ("oc".toList) name with
      | some r => some r
      | none =>
        match tryPat ("project".toList) name with
        | some r => some r
        | none => tryPat ("proj".toList) name
  match afterAlt with
  | some r => some (match r with
      | c :: rest => if c = '-' then rest else r
      | [] => r)
  | none => none

/-- `parseProjectPath` from `src/services/session-manager.ts`. -/
def parseProjectPath (defaultProjectPath name : Str) : Option Str :=
  let replaced := match stripNamePat name with
    | some r => r
    | none => name
  let cleanName := trim replaced
  if cleanName.length = 0 || cleanName = name then none
  else some (defaultProjectPath ++ ['/'] ++ cleanName)

/-- The resolution `projectPath || this.parseProjectPath(channelName) ||
this.defaultProjectPath` with JavaScript string truthiness (the empty
string is falsy). -/
def resolvePath (defaultProjectPath : Str) (override : Option Str) (name : Str) : Str :=
  let fromParse :=
    match parseProjectPath defaultProjectPath name with
    | some p => if p.length = 0 then defaultProjectPath else p
    | none => defaultProjectPath
  match override with
  | some p => if p.length = 0 then fromParse else p
  | none => fromParse

/-- The title string `Discord: #channelName` passed to the backend. -/
def sessionTitle (channelName : Str) : Str := "Discord: #".toList ++ channelName

/-- `SessionManager.createSession`.  `createIdx` is the index of the next
create call in the enclosing operation's oracle; `now` is the current
clock tick. -/
def createSession (b : Backend) (createIdx : Nat) (st : SMState) (now : Nat)
    (channelId channelName : Str) (projectPath : Option Str) :
    Except BackendErr Session × SMState × List BCall :=
  match mapGet st.sessions channelId with
  | some s => (.ok s, st, [])
  | none =>
    let resolvedPath := resolvePath st.defaultProjectPath projectPath channelName
    match b.createRes createIdx with
    | .error e => (.error e, st, [.create (sessionTitle channelName)])
    | .ok id =>
      let sess : Session :=
        { tag := st.nextTag, channelId := channelId, sessionId := id,
          projectPath := resolvedPath, channelName := channelName,
          createdAt := now, lastActivity := now, messageCount := 0,
          isProcessing := false }
      (.ok sess,
       { st with sessions := mapSet st.sessions channelId sess, nextTag := st.nextTag + 1 },
       [.create (sessionTitle channelName)])

/-- The errors `sendMessage` can produce: the two synchronous guard errors
and a propagated backend error. -/
inductive SendErr where
  | noSession
  | busy
  | backend (e : BackendErr)
  deriving DecidableEq, Repr

/-- Result of the synchronous prefix of `sendMessage` (everything before
the first `await`): either a guard error, or the first backend send call
has been issued for the session object returned. -/
inductive SendStartResult where
  | noSession
  | busy
  | issued (sess : Session)
  deriving DecidableEq, Repr

/-- The synchronous prefix of `SessionManager.sendMessage` (lines 87-100):
look up the session, fail on absence or on `isProcessing`, otherwise set
`isProcessing = true`, stamp `lastActivity`, and issue the first backend
send.  While the result is `issued sess`, that send is in flight; no
backend call happens at all in the other two cases. -/
def sendStart (st : SMState) (now : Nat) (channelId : Str) :
    SMState × SendStartResult :=
  match mapGet st.sessions channelId with
  | none => (st, .noSession)
  | some s =>
    if s.isProcessing then (st, .busy)
    else
      let s' := { s with isProcessing := true, lastActivity := now }
      ({ st with sessions := mapSet st.sessions channelId s' }, .issued s')

/-- The `finally` block of `sendMessage`: reset `isProcessing` on the
original session object (a no-op on the map when that object has been
replaced by recovery). -/
def sendFinally (st : SMState) (channelId : Str) (tg : Nat) : SMState :=
  mutateObj st channelId tg (fun s => { s with isProcessing := false })

/-- Continuation of `sendMessage` after the first backend send resolves:
either the whole call finishes (with the `finally` block applied), or the
404-recovery has recreated the session and the retry send is now in
flight. -/
inductive AfterFirst where
  | finished (r : Except SendErr Str)
  | awaitRetry (newSess : Session)
  deriving Repr

/-- The synchronous slice of `sendMessage` run when the first backend send
resolves with `res` (lines 100-116): on success bump `messageCount`; on a
404 `OpenCodeClientError` delete the stale entry, run `createSession`
with the same channel name and project path, and issue the retry send; on
any other error propagate.  Every path that finishes here applies the
`finally` block.  Returns the new state, the continuation, and the backend
calls made inside this slice (the recovery's create call and retry send). -/
def sendAfterFirst (b : Backend) (st : SMState) (now2 : Nat)
    (channelId : Str) (sess : Session) (message : Str)
    (res : Except BackendErr Str) : SMState × AfterFirst × List BCall :=
  match res with
  | .ok reply =>
    let st2 := mutateObj st channelId sess.tag
      (fun s => { s with messageCount := s.messageCount + 1 })
    (sendFinally st2 channelId sess.tag, .finished (.ok reply), [])
  | .error e =>
    if e = .clientError (some 404) then
      let st2 := { st with sessions := mapDel st.sessions channelId }
      match createSession b 0 st2 now2 channelId sess.channelName (some sess.projectPath) with
      | (.error ce, st3, calls) =>
        (sendFinally st3 channelId sess.tag, .finished (.error (.backend ce)), calls)
      | (.ok newSess, st3, calls) =>
        (st3, .awaitRetry newSess, calls ++ [.send newSess.sessionId message])
    else
      (sendFinally st channelId sess.tag, .finished (.error (.backend e)), [])

/-- The final slice of `sendMessage`: the retry send resolved with `res`;
its value or error is returned as is (a second 404 is not retried), and the
`finally` block resets `isProcessing` on the original session object. -/
def sendAfterRetry (st : SMState) (channelId : Str) (origTag : Nat)
    (res : Except BackendErr Str) : SMState × Except SendErr Str :=
  match res with
  | .ok reply => (sendFinally st channelId origTag, .ok reply)
  | .error e => (sendFinally st channelId origTag, .error (.backend e))

/-- `SessionManager.sendMessage`: the composition of the three synchronous
slices, with the backend responses supplied by the oracle (send calls are
numbered 0 for the initial forward and 1 for the post-recreation retry;
the recovery's create call is number 0).  `now` stamps the initial
activity update and `now2` the recreated session.  Returns the result, the
final state, and the trace of backend calls in order. -/
def sendMessage (b : Backend) (st : SMState) (now now2 : Nat)
    (channelId message : Str) : Except SendErr Str × SMState × List BCall :=
  match sendStart st now channelId with
  | (st1, .noSession) => (.error .noSession, st1, [])
  | (st1, .busy) => (.error .busy, st1, [])
  | (st1, .issued sess) =>
    let call0 : BCall := .send sess.sessionId message
    match sendAfterFirst b st1 now2 channelId sess message
        (b.sendRes 0 sess.sessionId message) with
    | (st2, .finished r, calls) => (r, st2, call0 :: calls)
    | (st2, .awaitRetry newSess, calls) =>
      match sendAfterRetry st2 channelId sess.tag
          (b.sendRes 1 newSess.sessionId message) with
      | (st3, r) => (r, st3, call0 :: calls)

/-- `SessionManager.deleteSession`: `false` without any backend call when
the channel has no session; otherwise attempt the remote delete and remove
the local entry; the try/catch swallows either remote outcome, so both
branches continue identically. -/
def deleteSession (b : Backend) (st : SMState) (channelId : Str) :
    Bool × SMState × List BCall :=
  match mapGet st.sessions channelId with
  | none => (false, st, [])
  | some s =>
    match b.deleteRes 0 with
    | .ok _ =>
      (true, { st with sessions := mapDel st.sessions channelId }, [.del s.sessionId])
    | .error _ =>
      (true, { st with sessions := mapDel st.sessions channelId }, [.del s.sessionId])

/-! ## Lemmas about the session map -/

theorem mapGet_cons_hit (e : Str × Session) (t : List (Str × Session)) (k : Str)
    (h : e.1 = k) : mapGet (e :: t) k = some e.2 := by
  simp only [mapGet, List.find?_cons, h]
  simp

theorem mapGet_cons_miss (e : Str × Session) (t : List (Str × Session)) (k : Str)
    (h : ¬ e.1 = k) : mapGet (e :: t) k = mapGet t k := by
  simp only [mapGet, List.find?_cons, h]
  simp [h]

theorem mapGet_mapReplace (m : List (Str × Session)) (k : Str) (v : Session)
    (h : m.any (fun e => (e.1 = k : Bool)) = true) :
    mapGet (m.map (fun e => if e.1 = k then (k, v) else e)) k = some v := by
  induction m with
  | nil => simp at h
  | cons e t ih =>
    by_cases he : e.1 = k
    · rw [List.map_cons, if_pos he, mapGet_cons_hit _ _ _ rfl]
    · have ht : t.any (fun e => (e.1 = k : Bool)) = true := by
        have hpe : ((e.1 = k : Bool)) = false := by simp [he]
        rw [List.any_cons, hpe, Bool.false_or] at h
        exact h
      rw [List.map_cons, if_neg he, mapGet_cons_miss _ _ _ he]
      exact ih ht

theorem mapGet_append_single (m : List (Str × Session)) (k : Str) (v : Session)
    (h : ∀ e ∈ m, e.1 ≠ k) : mapGet (m ++ [(k, v)]) k = some v := by
  induction m with
  | nil => rw [List.nil_append, mapGet_cons_hit _ _ _ rfl]
  | cons e t ih =>
    have he : e.1 ≠ k := h e (by simp)
    rw [List.cons_append, mapGet_cons_miss _ _ _ he]
    exact ih (fun x hx => h x (by simp [hx]))

theorem mapGet_mapSet_self (m : List (Str × Session)) (k : Str) (v : Session) :
    mapGet (mapSet m k v) k = some v := by
  unfold mapSet
  by_cases hany : m.any (fun e => (e.1 = k : Bool)) = true
  · rw [if_pos hany]
    exact mapGet_mapReplace m k v hany
  · rw [if_neg hany]
    refine mapGet_append_single m k v ?_
    intro e he hek
    exact hany (List.any_eq_true.mpr ⟨e, he, by simp [hek]⟩)

theorem mapGet_mapDel_self (m : List (Str × Session)) (k : Str) :
    mapGet (mapDel m k) k = none := by
  induction m with
  | nil => rfl
  | cons e t ih =>
    by_cases h : e.1 = k
    · simpa [mapDel, h] using ih
    · simp only [mapDel, List.filter] at ih ⊢
      rw [show (!(e.1 = k : Bool)) = true by simp [h]]
      rw [mapGet_cons_miss _ _ _ h]
      exact ih

theorem mutateObj_of_none (st : SMState) (ch : Str) (tg : Nat) (f : Session → Session)
    (h : mapGet st.sessions ch = none) : mutateObj st ch tg f = st := by
  simp [mutateObj, h]

/-! ## Concrete fixtures used by witnesses and counterexamples -/

/-- A concrete channel id. -/
def chA : Str := "chan1".toList

/-- A concrete message text. -/
def msgA : Str := "hello".toList

/-- A concrete idle session bound to `chA`. -/
def sessA : Session :=
  { tag := 0, channelId := chA, sessionId := "s1".toList,
    projectPath := "D:/Dev/app".toList, channelName := "app".toList,
    createdAt := 0, lastActivity := 0, messageCount := 3, isProcessing := false }

/-- A concrete manager state holding `sessA`. -/
def stA : SMState :=
  { sessions := [(chA, sessA)], defaultProjectPath := "D:/Dev".toList, nextTag := 1 }

/-- A backend whose calls all succeed. -/
def bOk : Backend :=
  { createRes := fun _ => .ok ("s2".toList),
    sendRes := fun _ _ _ => .ok ("reply".toList),
    deleteRes := fun _ => .ok () }

/-- A backend whose first send fails with a 404 client error and whose
other calls succeed (the conversation disappeared server-side). -/
def b404 : Backend :=
  { createRes := fun _ => .ok ("s2".toList),
    sendRes := fun n _ _ =>
      if n = 0 then .error (.clientError (some 404)) else .ok ("reply".toList),
    deleteRes := fun _ => .ok () }

/-- A backend whose sends fail with a non-404 error. -/
def bFail : Backend :=
  { createRes := fun _ => .ok ("s2".toList),
    sendRes := fun _ _ _ => .error .otherError,
    deleteRes := fun _ => .ok () }

/-- A backend whose first send fails with 404 and whose create call also
fails (the backend went away mid-recovery). -/
def b404NoCreate : Backend :=
  { createRes := fun _ => .error .otherError,
    sendRes := fun _ _ _ => .error (.clientError (some 404)),
    deleteRes := fun _ => .ok () }


/-! ## Helper lemmas for the session manager proofs -/

/-- Shorthand for the session-object mutation done by `sendStart`. -/
def procSess (s : Session) (now : Nat) : Session :=
  { s with isProcessing := true, lastActivity := now }

@[simp] theorem procSess_sessionId (s : Session) (now : Nat) :
    (procSess s now).sessionId = s.sessionId := rfl

@[simp] theorem procSess_channelName (s : Session) (now : Nat) :
    (procSess s now).channelName = s.channelName := rfl

@[simp] theorem procSess_projectPath (s : Session) (now : Nat) :
    (procSess s now).projectPath = s.projectPath := rfl

@[simp] theorem procSess_tag (s : Session) (now : Nat) :
    (procSess s now).tag = s.tag := rfl

theorem resolvePath_override (d p n : Str) (h : p ≠ []) :
    resolvePath d (some p) n = p := by
  simp [resolvePath, List.length_eq_zero, h]

theorem mapGet_mutateObj (st : SMState) (ch : Str) (tg : Nat) (f : Session → Session)
    (v : Session) (h : mapGet st.sessions ch = some v) :
    mapGet (mutateObj st ch tg f).sessions ch = some (if v.tag = tg then f v else v) := by
  simp only [mutateObj, h]
  by_cases ht : v.tag = tg
  · rw [if_pos ht, if_pos ht]
    exact mapGet_mapSet_self _ _ _
  · rw [if_neg ht, if_neg ht]
    exact h

theorem mapGet_sendFinally (st : SMState) (ch : Str) (tg : Nat)
    (v : Session) (h : mapGet st.sessions ch = some v) :
    mapGet (sendFinally st ch tg).sessions ch =
      some (if v.tag = tg then { v with isProcessing := false } else v) :=
  mapGet_mutateObj st ch tg _ v h

theorem mapGet_sendFinally_mk (m : List (Str × Session)) (d : Str) (nt : Nat)
    (ch : Str) (tg : Nat) (v : Session) (h : mapGet m ch = some v) :
    mapGet (sendFinally ⟨m, d, nt⟩ ch tg).sessions ch =
      some (if v.tag = tg then { v with isProcessing := false } else v) :=
  mapGet_sendFinally ⟨m, d, nt⟩ ch tg v h

theorem sendStart_of_idle (st : SMState) (now : Nat) (ch : Str) (s : Session)
    (hs : mapGet st.sessions ch = some s) (hp : s.isProcessing = false) :
    sendStart st now ch =
      ({ st with sessions := mapSet st.sessions ch (procSess s now) },
       .issued (procSess s now)) := by
  simp only [sendStart, hs]
  rw [if_neg (by simp [hp])]
  rfl

/-- Computation of the whole recovery path (404 on the first send, create
succeeds, retry outcome left abstract): result, final state and trace. -/
theorem sendMessage_recovery_eq (b : Backend) (st : SMState) (now now2 : Nat)
    (ch msg : Str) (s : Session) (newId : Str)
    (hs : mapGet st.sessions ch = some s) (hp : s.isProcessing = false)
    (hpath : s.projectPath ≠ [])
    (h404 : b.sendRes 0 s.sessionId msg = .error (.clientError (some 404)))
    (hc : b.createRes 0 = .ok newId) :
    sendMessage b st now now2 ch msg =
      ((match b.sendRes 1 newId msg with
        | .ok r => .ok r
        | .error e => .error (.backend e)),
       sendFinally
        ⟨mapSet (mapDel (mapSet st.sessions ch (procSess s now)) ch) ch
          ⟨st.nextTag, ch, newId, s.projectPath, s.channelName, now2, now2, 0, false⟩,
         st.defaultProjectPath, st.nextTag + 1⟩ ch s.tag,
       [.send s.sessionId msg, .create (sessionTitle s.channelName), .send newId msg]) := by
  have hstart := sendStart_of_idle st now ch s hs hp
  have hdel : mapGet (mapDel (mapSet st.sessions ch (procSess s now)) ch) ch = none :=
    mapGet_mapDel_self _ ch
  have hrp : resolvePath st.defaultProjectPath (some s.projectPath) s.channelName
      = s.projectPath := resolvePath_override _ _ _ hpath
  simp only [sendMessage, hstart]
  simp only [sendAfterFirst, procSess_sessionId, h404]
  simp only [createSession, hdel, hc, procSess_channelName, procSess_projectPath,
    procSess_tag, hrp]
  cases hretry : b.sendRes 1 newId msg with
  | ok r => simp [sendAfterRetry, hretry]
  | error e => simp [sendAfterRetry, hretry]

/-! ## C9: deleteSession is idempotent and always removes locally -/

/-- C9: `deleteSession` on an absent channel returns "not found" with no
state change and no backend call; on a present session it issues the remote
delete but removes the local entry and reports success with the same
result, state and trace whatever the remote call returns (the backend
oracle `b` is arbitrary on both sides of the conjunction). -/
theorem deleteSession_idempotent_local (b : Backend) (st : SMState) (ch : Str) :
    (mapGet st.sessions ch = none → deleteSession b st ch = (false, st, [])) ∧
    (∀ s, mapGet st.sessions ch = some s →
      deleteSession b st ch =
        (true, { st with sessions := mapDel st.sessions ch }, [.del s.sessionId])) := by
  constructor
  · intro h
    simp [deleteSession, h]
  · intro s h
    simp only [deleteSession, h]
    cases b.deleteRes 0 <;> rfl

/-- Witness for C9 at a concrete state: deleting an existing session. -/
theorem deleteSession_idempotent_local_witness :
    deleteSession bOk stA chA =
      (true, { stA with sessions := mapDel stA.sessions chA }, [.del sessA.sessionId]) :=
  (deleteSession_idempotent_local bOk stA chA).2 sessA (by decide)

/-! ## C3: mutual exclusion per channel -/

/-- C3 (amended): whenever the registered session of a channel has
`isProcessing = true`, `sendMessage` immediately returns `Busy`, leaves the
state unchanged, and issues no backend call (empty trace). -/
theorem sendMessage_busy_guard (b : Backend) (st : SMState) (now now2 : Nat)
    (ch msg : Str) (s : Session)
    (hs : mapGet st.sessions ch = some s) (hp : s.isProcessing = true) :
    sendMessage b st now now2 ch msg = (.error .busy, st, []) := by
  simp [sendMessage, sendStart, hs, hp]

/-- A concrete session marked as processing, and a state holding it. -/
def sessBusy : Session := { sessA with isProcessing := true }

def stBusy : SMState := { stA with sessions := [(chA, sessBusy)] }

/-- Witness for the amended C3 at a concrete busy state. -/
theorem sendMessage_busy_guard_witness :
    sendMessage bOk stBusy 1 2 chA msgA = (.error .busy, stBusy, []) :=
  sendMessage_busy_guard bOk stBusy 1 2 chA msgA sessBusy (by decide) rfl

/-- The session object as mutated by the first call's `sendStart`. -/
def sessAP : Session := procSess sessA 1

/-- The state while the first call's initial send is in flight. -/
def stA1 : SMState := { stA with sessions := [(chA, sessAP)] }

/-- The session recreated by the 404 recovery. -/
def newSessA : Session :=
  { tag := 1, channelId := chA, sessionId := "s2".toList,
    projectPath := "D:/Dev/app".toList, channelName := "app".toList,
    createdAt := 2, lastActivity := 2, messageCount := 0, isProcessing := false }

/-- The state while the first call's recovery retry send is in flight. -/
def stMid : SMState :=
  { sessions := [(chA, newSessA)], defaultProjectPath := "D:/Dev".toList, nextTag := 2 }

/-- C3 counterexample: a first `sendMessage` on channel `chA` passes the
guard and issues its send (first conjunct); the backend answers 404
(second conjunct), upon which the recovery recreates the session and
issues the retry send, reaching state `stMid` with that retry still in
flight (third conjunct); at `stMid` a second `sendMessage` for the same
channel does not fail with `Busy` but issues another backend forward
(fourth and fifth conjuncts) — two forwards for the same channel are
concurrently in flight. -/
theorem sendMessage_concurrent_during_recovery_cex :
    sendStart stA 1 chA = (stA1, .issued sessAP) ∧
    b404.sendRes 0 sessAP.sessionId msgA = .error (.clientError (some 404)) ∧
    sendAfterFirst b404 stA1 2 chA sessAP msgA (.error (.clientError (some 404))) =
      (stMid, .awaitRetry newSessA,
       [.create (sessionTitle ("app".toList)), .send ("s2".toList) msgA]) ∧
    (sendStart stMid 3 chA).2 = .issued (procSess newSessA 3) ∧
    (sendStart stMid 3 chA).2 ≠ .busy :=
  ⟨by decide, rfl, rfl, by decide, by decide⟩

/-! ## C10: failure of the recovery's createSession -/

/-- C10: when the first send 404s and the recovery's create call fails,
the stale session is already removed and no new session is inserted: the
creation error propagates, the channel is left with no session, and any
subsequent `sendMessage` for it fails with the no-session error without
issuing a backend call. -/
theorem sendMessage_recovery_create_failure (b : Backend) (st : SMState)
    (now now2 : Nat) (ch msg : Str) (s : Session) (ce : BackendErr)
    (hs : mapGet st.sessions ch = some s) (hp : s.isProcessing = false)
    (h404 : b.sendRes 0 s.sessionId msg = .error (.clientError (some 404)))
    (hc : b.createRes 0 = .error ce) :
    (sendMessage b st now now2 ch msg).1 = .error (.backend ce) ∧
    mapGet (sendMessage b st now now2 ch msg).2.1.sessions ch = none ∧
    (∀ b2 n n2 msg2,
      sendMessage b2 (sendMessage b st now now2 ch msg).2.1 n n2 ch msg2 =
        (.error .noSession, (sendMessage b st now now2 ch msg).2.1, [])) := by
  have hstart := sendStart_of_idle st now ch s hs hp
  have hdel : mapGet (mapDel (mapSet st.sessions ch (procSess s now)) ch) ch = none :=
    mapGet_mapDel_self _ ch
  have hout : sendMessage b st now now2 ch msg =
      (.error (.backend ce),
       { st with sessions := mapDel (mapSet st.sessions ch (procSess s now)) ch },
       [.send s.sessionId msg, .create (sessionTitle s.channelName)]) := by
    simp only [sendMessage, hstart]
    simp only [sendAfterFirst, procSess_sessionId, h404]
    simp only [createSession, hdel, hc]
    simp [sendFinally, mutateObj, hdel]
  refine ⟨by rw [hout], by rw [hout]; exact hdel, ?_⟩
  intro b2 n n2 msg2
  rw [hout]
  simp [sendMessage, sendStart, hdel]

/-- Witness for C10 at a concrete state and backend. -/
theorem sendMessage_recovery_create_failure_witness :
    (sendMessage b404NoCreate stA 1 2 chA msgA).1 = .error (.backend .otherError) ∧
    mapGet (sendMessage b404NoCreate stA 1 2 chA msgA).2.1.sessions chA = none ∧
    sendMessage bOk (sendMessage b404NoCreate stA 1 2 chA msgA).2.1 3 4 chA msgA =
      (.error .noSession, (sendMessage b404NoCreate stA 1 2 chA msgA).2.1, []) := by
  have h := sendMessage_recovery_create_failure b404NoCreate stA 1 2 chA msgA sessA
    .otherError (by decide) rfl rfl rfl
  exact ⟨h.1, h.2.1, h.2.2 bOk 3 4 msgA⟩

/-! ## C4: transparent recreation on 404 -/

/-- C4: under a backend whose first send 404s and whose create call
returns a fresh id `newId` distinct from the stale one, `sendMessage`
deletes the stale session and registers a recreated one carrying `newId`
(different from the pre-call conversation id) with the same channel name
and working-directory hint; the backend sees exactly the failed send, one
create with the channel's title, and one retry send against the new
conversation; and the retry's outcome — success or a second not-found —
is returned as is, with no further retry (the trace has exactly those
three calls whatever `b.sendRes 1` returns). -/
theorem sendMessage_recovery_recreates (b : Backend) (st : SMState)
    (now now2 : Nat) (ch msg : Str) (s : Session) (newId : Str)
    (hs : mapGet st.sessions ch = some s) (hp : s.isProcessing = false)
    (hpath : s.projectPath ≠ [])
    (h404 : b.sendRes 0 s.sessionId msg = .error (.clientError (some 404)))
    (hc : b.createRes 0 = .ok newId) (hnew : newId ≠ s.sessionId) :
    (∃ ns, mapGet (sendMessage b st now now2 ch msg).2.1.sessions ch = some ns ∧
      ns.sessionId = newId ∧ ns.sessionId ≠ s.sessionId ∧
      ns.channelName = s.channelName ∧ ns.projectPath = s.projectPath ∧
      ns.messageCount = 0) ∧
    (sendMessage b st now now2 ch msg).2.2 =
      [.send s.sessionId msg, .create (sessionTitle s.channelName), .send newId msg] ∧
    (sendMessage b st now now2 ch msg).1 =
      (match b.sendRes 1 newId msg with
       | .ok r => .ok r
       | .error e => .error (.backend e)) := by
  have hout := sendMessage_recovery_eq b st now now2 ch msg s newId hs hp hpath h404 hc
  refine ⟨?_, by rw [hout], by rw [hout]⟩
  rw [hout]
  have hget : mapGet (mapSet (mapDel (mapSet st.sessions ch (procSess s now)) ch) ch
      ⟨st.nextTag, ch, newId, s.projectPath, s.channelName, now2, now2, 0, false⟩) ch =
      some ⟨st.nextTag, ch, newId, s.projectPath, s.channelName, now2, now2, 0, false⟩ :=
    mapGet_mapSet_self _ _ _
  have hfin := mapGet_sendFinally_mk _ st.defaultProjectPath (st.nextTag + 1) ch s.tag _ hget
  refine ⟨⟨st.nextTag, ch, newId, s.projectPath, s.channelName, now2, now2, 0, false⟩,
    ?_, rfl, hnew, rfl, rfl, rfl⟩
  rw [hfin]
  by_cases htag : st.nextTag = s.tag <;> simp [htag]

/-- Witness for C4 at a concrete state and backend. -/
theorem sendMessage_recovery_recreates_witness :
    (∃ ns, mapGet (sendMessage b404 stA 1 2 chA msgA).2.1.sessions chA = some ns ∧
      ns.sessionId = "s2".toList ∧ ns.sessionId ≠ sessA.sessionId ∧
      ns.channelName = sessA.channelName ∧ ns.projectPath = sessA.projectPath ∧
      ns.messageCount = 0) ∧
    (sendMessage b404 stA 1 2 chA msgA).2.2 =
      [.send sessA.sessionId msgA, .create (sessionTitle sessA.channelName),
       .send ("s2".toList) msgA] ∧
    (sendMessage b404 stA 1 2 chA msgA).1 =
      (match b404.sendRes 1 ("s2".toList) msgA with
       | .ok r => .ok r
       | .error e => .error (.backend e)) :=
  sendMessage_recovery_recreates b404 stA 1 2 chA msgA sessA ("s2".toList)
    (by decide) rfl (by decide) rfl rfl (by decide)

/-! ## C6: what a forward updates -/

/-- C6 counterexample: a forward that fails with a non-404 backend error
still changes `lastActivityAt` (it is stamped before the backend call), so
"on a failed forward messageCount and lastActivityAt are unchanged" is
false: after the failed call the stored session's `lastActivity` is the
call's timestamp 5, not its pre-call value 0. -/
theorem sendMessage_failed_forward_cex :
    (sendMessage bFail stA 5 6 chA msgA).1 = .error (.backend .otherError) ∧
    mapGet (sendMessage bFail stA 5 6 chA msgA).2.1.sessions chA =
      some ({ sessA with lastActivity := 5 }) ∧
    sessA.lastActivity = 0 :=
  ⟨rfl, by decide, rfl⟩

/-- C6 (amended): on a first-try success the reply is returned,
`lastActivityAt` is set to the call's timestamp and `messageCount` is
incremented; on a failed non-404 forward `messageCount` is unchanged but
`lastActivityAt` has still been updated (it is stamped before the backend
call); and after a successful recovery retry the reply is returned but the
recreated session's `messageCount` is 0 — the retried send does not
increment it. -/
theorem sendMessage_update_semantics (b : Backend) (st : SMState) (now now2 : Nat)
    (ch msg : Str) (s : Session)
    (hs : mapGet st.sessions ch = some s) (hp : s.isProcessing = false) :
    (∀ r, b.sendRes 0 s.sessionId msg = .ok r →
      (sendMessage b st now now2 ch msg).1 = .ok r ∧
      mapGet (sendMessage b st now now2 ch msg).2.1.sessions ch =
        some ({ s with lastActivity := now, messageCount := s.messageCount + 1, isProcessing := false })) ∧
    (∀ e, b.sendRes 0 s.sessionId msg = .error e → e ≠ .clientError (some 404) →
      (sendMessage b st now now2 ch msg).1 = .error (.backend e) ∧
      mapGet (sendMessage b st now now2 ch msg).2.1.sessions ch =
        some ({ s with lastActivity := now, isProcessing := false })) ∧
    (∀ newId r2, b.sendRes 0 s.sessionId msg = .error (.clientError (some 404)) →
      b.createRes 0 = .ok newId → b.sendRes 1 newId msg = .ok r2 →
      s.projectPath ≠ [] →
      (sendMessage b st now now2 ch msg).1 = .ok r2 ∧
      (∃ ns, mapGet (sendMessage b st now now2 ch msg).2.1.sessions ch = some ns ∧
        ns.messageCount = 0 ∧ ns.lastActivity = now2)) := by
  have hstart := sendStart_of_idle st now ch s hs hp
  refine ⟨?_, ?_, ?_⟩
  · intro r hr
    have hget1 : mapGet ({ st with sessions := mapSet st.sessions ch (procSess s now) } :
        SMState).sessions ch = some (procSess s now) := mapGet_mapSet_self _ _ _
    have hget2 := mapGet_mutateObj
      ({ st with sessions := mapSet st.sessions ch (procSess s now) }) ch s.tag
      (fun x => { x with messageCount := x.messageCount + 1 }) _ hget1
    rw [if_pos (procSess_tag s now)] at hget2
    have hget3 := mapGet_sendFinally _ ch s.tag _ hget2
    rw [if_pos (procSess_tag s now)] at hget3
    have hout : sendMessage b st now now2 ch msg =
        (.ok r,
         sendFinally (mutateObj ({ st with sessions := mapSet st.sessions ch (procSess s now) })
           ch s.tag (fun x => { x with messageCount := x.messageCount + 1 })) ch s.tag,
         [.send s.sessionId msg]) := by
      simp only [sendMessage, hstart]
      simp only [sendAfterFirst, procSess_sessionId, procSess_tag, hr]
    rw [hout]
    exact ⟨rfl, hget3⟩
  · intro e he hne
    have hget1 : mapGet ({ st with sessions := mapSet st.sessions ch (procSess s now) } :
        SMState).sessions ch = some (procSess s now) := mapGet_mapSet_self _ _ _
    have hget3 := mapGet_sendFinally _ ch s.tag _ hget1
    rw [if_pos (procSess_tag s now)] at hget3
    have hout : sendMessage b st now now2 ch msg =
        (.error (.backend e),
         sendFinally ({ st with sessions := mapSet st.sessions ch (procSess s now) }) ch s.tag,
         [.send s.sessionId msg]) := by
      simp only [sendMessage, hstart]
      simp only [sendAfterFirst, procSess_sessionId, procSess_tag, he]
      rw [if_neg hne]
    rw [hout]
    exact ⟨rfl, hget3⟩
  · intro newId r2 h404 hc hretry hpath
    have hout := sendMessage_recovery_eq b st now now2 ch msg s newId hs hp hpath h404 hc
    rw [hretry] at hout
    rw [hout]
    have hget : mapGet (mapSet (mapDel (mapSet st.sessions ch (procSess s now)) ch) ch
        ⟨st.nextTag, ch, newId, s.projectPath, s.channelName, now2, now2, 0, false⟩) ch =
        some ⟨st.nextTag, ch, newId, s.projectPath, s.channelName, now2, now2, 0, false⟩ :=
      mapGet_mapSet_self _ _ _
    have hfin := mapGet_sendFinally_mk _ st.defaultProjectPath (st.nextTag + 1) ch s.tag _ hget
    refine ⟨rfl, ⟨st.nextTag, ch, newId, s.projectPath, s.channelName, now2, now2, 0, false⟩,
      ?_, rfl, rfl⟩
    rw [hfin]
    by_cases htag : st.nextTag = s.tag <;> simp [htag]

/-- Witness for the amended C6: the success branch at a concrete state. -/
theorem sendMessage_update_semantics_witness :
    (sendMessage bOk stA 5 6 chA msgA).1 = .ok ("reply".toList) ∧
    mapGet (sendMessage bOk stA 5 6 chA msgA).2.1.sessions chA =
      some ({ sessA with lastActivity := 5, messageCount := 4, isProcessing := false }) :=
  (sendMessage_update_semantics bOk stA 5 6 chA msgA sessA (by decide) rfl).1
    ("reply".toList) rfl


/-! ## C7: the chunking engine is not total -/

/-- The C7 failing input: a fenced block (without language tag) whose
fence-wrapper overhead (8) leaves a zero content budget at `maxLength = 8`. -/
def cexBlock : Str := "```\nab\ncd\n```".toList

/-- The `wrapLongLine` loop makes no progress on the line `ab` with a zero
budget: `lastIndexOf(' ', 0)` is `-1`, so the split index becomes the
budget `0`, the pushed part is empty and the remainder is unchanged — the
loop never terminates, whatever the fuel. -/
theorem wrapLongLineAux_ab_stuck (fuel : Nat) :
    ∀ acc, wrapLongLineAux fuel ('a' :: 'b' :: []) 0 acc = none := by
  induction fuel with
  | zero =>
    intro acc
    rfl
  | succ n ih =>
    intro acc
    have hstep : wrapLongLineAux (n + 1) ('a' :: 'b' :: []) 0 acc =
        wrapLongLineAux n ('a' :: 'b' :: []) 0 (acc ++ [[]]) := rfl
    rw [hstep]
    exact ih _

/-- Non-termination of `wrapLongLine` propagates through the line-packing
loop of `splitLongCodeBlock`. -/
theorem splitCodeCore_none (fuel : Nat) (language : Str) (cm : Int)
    (line : Str) (rest : List Str) (cc : Str) (chunks : List Str)
    (hline : (line.length : Int) > cm)
    (hw : wrapLongLineAux fuel line cm [] = none) :
    splitCodeCore fuel language cm (line :: rest) cc chunks = none := by
  simp only [splitCodeCore]
  rw [if_pos hline, hw]

/-- C7 (refuting theorem): at `maxLength = 8` on a fenced block with
two-character lines, `chunkMessage` returns no result at any fuel — the
JavaScript original loops forever in `wrapLongLine` because the content
budget `maxLength - overhead` is zero, contradicting the claim that the
engine always terminates with a well-formed sequence. -/
theorem chunkMessage_diverges_cex (fuel : Nat) :
    chunkMessage fuel cexBlock 8 = none := by
  have hsplit : splitLongCodeBlock fuel cexBlock 8 = none := by
    have h0 : splitLongCodeBlock fuel cexBlock 8 =
        splitCodeCore fuel [] 0 [['a', 'b'], ['c', 'd'], []] [] [] := rfl
    rw [h0]
    exact splitCodeCore_none fuel [] 0 ['a', 'b'] [['c', 'd'], []] [] []
      (by decide) (wrapLongLineAux_ab_stuck fuel [])
  have h1 : chunkMessage fuel cexBlock 8 =
      Option.map (fun cs => List.filter (fun c => !List.isEmpty c) cs)
        (match splitLongCodeBlock fuel cexBlock 8 with
         | none => (none : Option (List Str))
         | some sub => chunkWithCodeBlocksAux fuel 8 [] [] ([] ++ sub)) := rfl
  rw [h1, hsplit]
  rfl


/-! ## Basic lemmas about trimming, slicing and visible content -/

/-- The visible (non-whitespace) characters of a string. -/
def visible (s : Str) : Str := s.filter (fun c => !isWsChar c)

theorem visible_append (a b : Str) : visible (a ++ b) = visible a ++ visible b :=
  List.filter_append a b

theorem visible_dropWhileWs (s : Str) : visible (s.dropWhile isWsChar) = visible s := by
  conv_rhs => rw [← List.takeWhile_append_dropWhile isWsChar s]
  rw [visible_append]
  have h : visible (s.takeWhile isWsChar) = [] := by
    refine List.filter_eq_nil_iff.mpr ?_
    intro a ha
    simp [List.mem_takeWhile_imp ha]
  rw [h, List.nil_append]

theorem visible_trimStart (s : Str) : visible (trimStart s) = visible s :=
  visible_dropWhileWs s

theorem visible_trimEnd (s : Str) : visible (trimEnd s) = visible s := by
  unfold trimEnd visible
  rw [List.filter_reverse, ← visible, visible_dropWhileWs, visible, ← List.filter_reverse,
    List.reverse_reverse]

theorem visible_trim (s : Str) : visible (trim s) = visible s := by
  unfold trim
  rw [visible_trimEnd, visible_trimStart]

theorem trimStart_length_le (s : Str) : (trimStart s).length ≤ s.length :=
  (List.dropWhile_suffix isWsChar).length_le

theorem trimEnd_length_le (s : Str) : (trimEnd s).length ≤ s.length := by
  unfold trimEnd
  rw [List.length_reverse]
  calc (s.reverse.dropWhile isWsChar).length ≤ s.reverse.length :=
        (List.dropWhile_suffix isWsChar).length_le
    _ = s.length := List.length_reverse s

theorem trim_length_le (s : Str) : (trim s).length ≤ s.length :=
  le_trans (trimEnd_length_le _) (trimStart_length_le s)

theorem trim_of_all_ws (s : Str) (h : ∀ c ∈ s, isWsChar c) : trim s = [] := by
  have h1 : trimStart s = [] := by
    unfold trimStart
    induction s with
    | nil => rfl
    | cons c t ih =>
      rw [List.dropWhile_cons, if_pos (by simp [h c (by simp)])]
      exact ih (fun x hx => h x (by simp [hx]))
  unfold trim
  rw [h1]
  rfl

theorem visible_eq_nil_iff (s : Str) : visible s = [] ↔ ∀ c ∈ s, isWsChar c := by
  unfold visible
  rw [List.filter_eq_nil_iff]
  constructor
  · intro h c hc
    have := h c hc
    simpa using this
  · intro h c hc
    simp [h c hc]

theorem jsSlice_zero_take (s : Str) (k : Int) :
    jsSlice s 0 k = s.take (sliceIdx s.length k) := by
  unfold jsSlice
  have h0 : sliceIdx s.length 0 = 0 := by simp [sliceIdx]
  rw [h0, List.drop_zero]

theorem jsSlice_append_jsSliceFrom (s : Str) (k : Int) :
    jsSlice s 0 k ++ jsSliceFrom s k = s := by
  rw [jsSlice_zero_take]
  unfold jsSliceFrom
  exact List.take_append_drop _ s

/-! ## C5: lossless concatenation for fence-free input -/

theorem chunkPlainTextAux_concat (fuel : Nat) :
    ∀ (rem : Str) (m : Int) (acc out : List Str),
      chunkPlainTextAux fuel rem m acc = some out →
      visible out.flatten = visible acc.flatten ++ visible rem := by
  induction fuel with
  | zero =>
    intro rem m acc out h
    exact absurd h (by simp [chunkPlainTextAux])
  | succ n ih =>
    intro rem m acc out h
    rw [chunkPlainTextAux] at h
    by_cases h0 : rem.length = 0
    · rw [if_pos h0] at h
      have hrem : rem = [] := List.length_eq_zero.mp h0
      cases h
      simp [hrem, visible]
    · rw [if_neg h0] at h
      by_cases h1 : (rem.length : Int) ≤ m
      · rw [if_pos h1] at h
        cases h
        rw [List.flatten_append]
        simp [visible_append, visible_trim]
      · rw [if_neg h1] at h
        have hsplit := ih _ _ _ _ h
        rw [hsplit]
        simp only [List.flatten_append, List.flatten_cons, List.flatten_nil, List.append_nil,
          visible_append, visible_trim]
        rw [List.append_assoc, ← visible_append, jsSlice_append_jsSliceFrom]

theorem flatten_filter_nonempty (cs : List Str) :
    (cs.filter (fun c => !c.isEmpty)).flatten = cs.flatten := by
  induction cs with
  | nil => rfl
  | cons c t ih =>
    by_cases hc : c.isEmpty
    · have hc' : c = [] := by simpa [List.isEmpty_iff] using hc
      simp [List.filter_cons, hc, hc', ih]
    · simp [List.filter_cons, hc, ih]

/-- C5: for fence-free text and positive maxLength, whenever the chunking
entry point returns, the concatenation of its fragments has exactly the
visible (non-whitespace) characters of the input, in order — nothing
dropped, nothing duplicated; only boundary whitespace differs. -/
theorem chunkMessage_concat (fuel : Nat) (t : Str) (m : Int) (l : List Str)
    (hf : containsFence t = false) (hm : 0 < m)
    (h : chunkMessage fuel t m = some l) :
    visible l.flatten = visible t := by
  rw [chunkMessage] at h
  by_cases h1 : (t.length : Int) ≤ m
  · rw [if_pos h1] at h
    cases h
    simp
  · rw [if_neg h1, hf] at h
    simp only [Bool.false_eq_true, if_false] at h
    rw [chunkPlainText] at h
    cases haux : chunkPlainTextAux fuel t m [] with
    | none => rw [haux] at h; cases h
    | some out =>
      rw [haux] at h
      cases h
      rw [flatten_filter_nonempty]
      have := chunkPlainTextAux_concat fuel t m [] out haux
      simpa using this


/-- Concrete fence-free text for the C5 witness. -/
def plainT : Str := "Hello world. This is a test. More text here!".toList

/-- Witness for C5: a concrete chunking run whose fragments concatenate to
the input's visible content. -/
theorem chunkMessage_concat_witness :
    visible (["Hello world.".toList, "This is a test.".toList,
      "More text here!".toList] : List Str).flatten = visible plainT :=
  chunkMessage_concat 100 plainT 20 _ (by decide) (by decide) (by decide)

/-! ## C8: empty and whitespace-only input -/

/-- The guard of `DiscordBot.sendResponse` (`src/services/discord-bot.ts`
lines 262-268): the response is trimmed, and an empty result is rejected
with a notice before any chunking happens; only an accepted response
reaches `chunkMessage`. -/
def sendResponseAccepts (response : Str) : Bool := !(trim response).isEmpty

/-- A concrete whitespace-only, non-empty input. -/
def wsOnly : Str := "   ".toList

/-- C8 counterexample: on the non-empty whitespace-only input of length at
most `maxLength`, the engine returns the input verbatim as a single
fragment with zero visible content — so the engine does emit a
zero-visible fragment on an input that is not the empty string. -/
theorem chunkMessage_ws_verbatim_cex :
    chunkMessage 1 wsOnly 10 = some [wsOnly] ∧ wsOnly ≠ [] ∧ visible wsOnly = [] := by
  decide

theorem mem_trim (s : Str) (x : Char) (h : x ∈ trim s) : x ∈ s := by
  unfold trim trimEnd trimStart at h
  have h1 := (List.dropWhile_suffix isWsChar).mem (List.mem_reverse.mp h)
  have h2 := List.mem_reverse.mp h1
  exact (List.dropWhile_suffix isWsChar).mem h2

theorem findFence_isPrefixOf (t : Str) (i : Nat) (h : findFence t = some i) :
    fence3.isPrefixOf (t.drop i) = true := by
  induction t generalizing i with
  | nil => cases h
  | cons c rest ih =>
    rw [findFence] at h
    by_cases hp : fence3.isPrefixOf (c :: rest) = true
    · rw [if_pos hp] at h
      cases h
      simpa using hp
    · rw [if_neg hp] at h
      cases hf : findFence rest with
      | none => rw [hf] at h; cases h
      | some j =>
        rw [hf] at h
        have hi : i = j + 1 := by
          have : some (j + 1) = some i := h
          exact (Option.some_inj.mp this).symm
        rw [hi]
        simpa using ih j hf

theorem containsFence_eq_false_of_ws (t : Str) (hws : visible t = []) :
    containsFence t = false := by
  rw [containsFence]
  cases hf : findFence t with
  | none => rfl
  | some i =>
    exfalso
    have hp := findFence_isPrefixOf t i hf
    have hmem : btChar ∈ t.drop i := by
      have := (List.isPrefixOf_iff_prefix.mp hp).subset
      exact this (by simp [fence3])
    have hbt : btChar ∈ t := List.mem_of_mem_drop hmem
    have := (visible_eq_nil_iff t).mp hws btChar hbt
    exact absurd this (by decide)

theorem chunkPlainTextAux_ws (fuel : Nat) :
    ∀ (rem : Str) (m : Int) (acc out : List Str),
      (∀ c ∈ rem, isWsChar c) → (∀ x ∈ acc, x = []) →
      chunkPlainTextAux fuel rem m acc = some out → ∀ x ∈ out, x = [] := by
  induction fuel with
  | zero =>
    intro rem m acc out _ _ h
    exact absurd h (by simp [chunkPlainTextAux])
  | succ n ih =>
    intro rem m acc out hrem hacc h
    rw [chunkPlainTextAux] at h
    by_cases h0 : rem.length = 0
    · rw [if_pos h0] at h
      cases h
      exact hacc
    · rw [if_neg h0] at h
      by_cases h1 : (rem.length : Int) ≤ m
      · rw [if_pos h1] at h
        cases h
        intro x hx
        rcases List.mem_append.mp hx with hx | hx
        · exact hacc x hx
        · rw [List.mem_singleton.mp hx]
          exact trim_of_all_ws rem hrem
      · rw [if_neg h1] at h
        refine ih _ m _ out ?_ ?_ h
        · intro c hc
          exact hrem c (List.mem_of_mem_drop (mem_trim _ _ hc))
        · intro x hx
          rcases List.mem_append.mp hx with hx | hx
          · exact hacc x hx
          · rw [List.mem_singleton.mp hx]
            refine trim_of_all_ws _ ?_
            intro c hc
            exact hrem c (List.mem_of_mem_take (List.mem_of_mem_drop hc))

/-- C8 (amended): a whitespace-only input never reaches the engine in the
repository (the bot's `sendResponse` trims the reply and rejects a blank
result before chunking).  The engine itself returns a whitespace-only
input of length ≤ maxLength verbatim as one zero-visible fragment, and
returns the empty sequence when such an input is longer than maxLength. -/
theorem chunkMessage_whitespace_only (fuel : Nat) (t : Str) (m : Int)
    (hws : visible t = []) (hm : 0 < m) :
    sendResponseAccepts t = false ∧
    ((t.length : Int) ≤ m → chunkMessage fuel t m = some [t]) ∧
    (∀ l, (t.length : Int) > m → chunkMessage fuel t m = some l → l = []) := by
  have hall : ∀ c ∈ t, isWsChar c := (visible_eq_nil_iff t).mp hws
  refine ⟨?_, ?_, ?_⟩
  · have := trim_of_all_ws t hall
    simp [sendResponseAccepts, this]
  · intro h1
    rw [chunkMessage, if_pos h1]
  · intro l hgt h
    rw [chunkMessage, if_neg (by omega), containsFence_eq_false_of_ws t hws] at h
    simp only [Bool.false_eq_true, if_false] at h
    rw [chunkPlainText] at h
    cases haux : chunkPlainTextAux fuel t m [] with
    | none => rw [haux] at h; cases h
    | some out =>
      rw [haux] at h
      cases h
      have hnil := chunkPlainTextAux_ws fuel t m [] out hall (by simp) haux
      refine List.filter_eq_nil_iff.mpr ?_
      intro a ha
      simp [hnil a ha]

/-- A long whitespace-only input for the C8 witness. -/
def wsLong : Str := "            ".toList

/-- Witness for the amended C8: the caller rejects the whitespace-only
input; the short whitespace-only input is returned verbatim; a long
whitespace-only input yields the empty sequence. -/
theorem chunkMessage_whitespace_only_witness :
    sendResponseAccepts wsOnly = false ∧
    chunkMessage 5 wsOnly 10 = some [wsOnly] ∧
    ([] : List Str) = [] := by
  have h := chunkMessage_whitespace_only 5 wsOnly 10 (by decide) (by decide)
  have h2 := chunkMessage_whitespace_only 50 wsLong 10 (by decide) (by decide)
  exact ⟨h.1, h.2.1 (by decide), h2.2.2 [] (by decide) (by decide)⟩


/-! ## Bounds on split indices -/

theorem occursAtB_le (s p : Str) (i : Nat) (hp : p ≠ [])
    (h : occursAtB s p i = true) : i + p.length ≤ s.length := by
  unfold occursAtB at h
  have hlen := (List.isPrefixOf_iff_prefix.mp h).length_le
  rw [List.length_drop] at hlen
  have hple : 1 ≤ p.length := List.length_pos.mpr hp
  omega

theorem jsLastIndexOfFrom_cases (s p : Str) (f : Int) :
    jsLastIndexOfFrom s p f = -1 ∨
    ∃ i : Nat, jsLastIndexOfFrom s p f = (i : Int) ∧ occursAtB s p i = true ∧
      i ≤ min f.toNat s.length := by
  simp only [jsLastIndexOfFrom]
  cases hg : ((List.range (min f.toNat s.length + 1)).filter
      (fun i => occursAtB s p i)).getLast? with
  | none => exact Or.inl rfl
  | some i =>
    refine Or.inr ⟨i, rfl, ?_, ?_⟩
    · have hm := List.mem_of_mem_getLast? hg
      exact (List.mem_filter.mp hm).2
    · have hm := List.mem_of_mem_getLast? hg
      have := List.mem_range.mp (List.mem_filter.mp hm).1
      omega

theorem jsLastIndexOf_cases (s p : Str) (hp : p ≠ []) :
    jsLastIndexOf s p = -1 ∨
    ∃ i : Nat, jsLastIndexOf s p = (i : Int) ∧ i + p.length ≤ s.length := by
  rcases jsLastIndexOfFrom_cases s p s.length with h | ⟨i, h, hocc, hle⟩
  · exact Or.inl h
  · exact Or.inr ⟨i, h, occursAtB_le s p i hp hocc⟩

theorem sentenceFold_le (t : Str) (pats : List Str)
    (hp : ∀ p ∈ pats, p.length = 2) :
    ∀ acc : Int, (acc = -1 ∨ (2 ≤ acc ∧ acc ≤ (t.length : Int))) →
    (pats.foldl
      (fun lastEnd pat =>
        let index := jsLastIndexOf t pat
        if index > lastEnd then index + 2 else lastEnd) acc) = -1 ∨
    (2 ≤ (pats.foldl
      (fun lastEnd pat =>
        let index := jsLastIndexOf t pat
        if index > lastEnd then index + 2 else lastEnd) acc) ∧
     (pats.foldl
      (fun lastEnd pat =>
        let index := jsLastIndexOf t pat
        if index > lastEnd then index + 2 else lastEnd) acc) ≤ (t.length : Int)) := by
  induction pats with
  | nil => intro acc hacc; exact hacc
  | cons p ps ih =>
    intro acc hacc
    rw [List.foldl_cons]
    refine ih (fun q hq => hp q (by simp [hq])) _ ?_
    have hp2 : p.length = 2 := hp p (by simp)
    have hpne : p ≠ [] := by
      intro he
      rw [he] at hp2
      simp at hp2
    rcases jsLastIndexOf_cases t p hpne with hidx | ⟨i, hidx, hile⟩
    · simp only [hidx]
      rcases hacc with h | ⟨h1, h2⟩
      · rw [h]
        simp
      · rw [if_neg (by omega)]
        exact Or.inr ⟨h1, h2⟩
    · simp only [hidx]
      by_cases hgt : (i : Int) > acc
      · rw [if_pos hgt]
        rw [hp2] at hile
        refine Or.inr ⟨by omega, by omega⟩
      · rw [if_neg hgt]
        exact hacc

theorem findLastSentenceEnd_le (t : Str) :
    findLastSentenceEnd t = -1 ∨
    (2 ≤ findLastSentenceEnd t ∧ findLastSentenceEnd t ≤ (t.length : Int)) := by
  have h := sentenceFold_le t sentencePatterns
    (by intro p hp; fin_cases hp <;> rfl) (-1) (Or.inl rfl)
  exact h

theorem searchText_len_le (t : Str) (m : Int) (hm : 0 ≤ m) :
    ((jsSlice t 0 m).length : Int) ≤ m := by
  rw [jsSlice_zero_take, List.length_take]
  have h1 : sliceIdx t.length m ≤ m.toNat := by
    unfold sliceIdx
    rw [if_neg (by omega)]
    exact Nat.min_le_left _ _
  have h2 : min (sliceIdx t.length m) t.length ≤ sliceIdx t.length m := Nat.min_le_left _ _
  have h3 : ((m.toNat : Int)) = m := Int.toNat_of_nonneg hm
  omega

theorem findBestSplitPoint_bounds (t : Str) (m : Int) (hm : 0 < m) :
    1 ≤ findBestSplitPoint t m ∧ findBestSplitPoint t m ≤ m := by
  simp only [findBestSplitPoint]
  have hslen : ((jsSlice t 0 m).length : Int) ≤ m := searchText_len_le t m (by omega)
  rcases jsLastIndexOf_cases (jsSlice t 0 m) [nlChar, nlChar] (by simp) with hpb | ⟨i, hpb, hile⟩
  · rw [hpb, if_neg (by omega)]
    rcases findLastSentenceEnd_le (jsSlice t 0 m) with hse | ⟨hse1, hse2⟩
    · rw [hse, if_neg (by omega)]
      rcases jsLastIndexOf_cases (jsSlice t 0 m) [nlChar] (by simp) with hnl | ⟨j, hnl, hjle⟩
      · rw [hnl, if_neg (by omega)]
        rcases jsLastIndexOf_cases (jsSlice t 0 m) [' '] (by simp) with hsp | ⟨k, hsp, hkle⟩
        · rw [hsp, if_neg (by omega)]
          omega
        · rw [hsp]
          simp only [List.length_cons, List.length_nil] at hkle
          by_cases hgt : (k : Int) * 10 > m * 3
          · rw [if_pos hgt]
            omega
          · rw [if_neg hgt]
            omega
      · rw [hnl]
        simp only [List.length_cons, List.length_nil] at hjle
        by_cases hgt : (j : Int) * 10 > m * 3
        · rw [if_pos hgt]
          omega
        · rw [if_neg hgt]
          rcases jsLastIndexOf_cases (jsSlice t 0 m) [' '] (by simp) with hsp | ⟨k, hsp, hkle⟩
          · rw [hsp, if_neg (by omega)]
            omega
          · rw [hsp]
            simp only [List.length_cons, List.length_nil] at hkle
            by_cases hgt2 : (k : Int) * 10 > m * 3
            · rw [if_pos hgt2]
              omega
            · rw [if_neg hgt2]
              omega
    · by_cases hgt : findLastSentenceEnd (jsSlice t 0 m) * 10 > m * 4
      · rw [if_pos hgt]
        omega
      · rw [if_neg hgt]
        rcases jsLastIndexOf_cases (jsSlice t 0 m) [nlChar] (by simp) with hnl | ⟨j, hnl, hjle⟩
        · rw [hnl, if_neg (by omega)]
          rcases jsLastIndexOf_cases (jsSlice t 0 m) [' '] (by simp) with hsp | ⟨k, hsp, hkle⟩
          · rw [hsp, if_neg (by omega)]
            omega
          · rw [hsp]
            simp only [List.length_cons, List.length_nil] at hkle
            by_cases hgt2 : (k : Int) * 10 > m * 3
            · rw [if_pos hgt2]
              omega
            · rw [if_neg hgt2]
              omega
        · rw [hnl]
          simp only [List.length_cons, List.length_nil] at hjle
          by_cases hgt2 : (j : Int) * 10 > m * 3
          · rw [if_pos hgt2]
            omega
          · rw [if_neg hgt2]
            rcases jsLastIndexOf_cases (jsSlice t 0 m) [' '] (by simp) with hsp | ⟨k, hsp, hkle⟩
            · rw [hsp, if_neg (by omega)]
              omega
            · rw [hsp]
              simp only [List.length_cons, List.length_nil] at hkle
              by_cases hgt3 : (k : Int) * 10 > m * 3
              · rw [if_pos hgt3]
                omega
              · rw [if_neg hgt3]
                omega
  · rw [hpb]
    simp only [List.length_cons, List.length_nil] at hile
    by_cases hgt0 : (i : Int) * 10 > m * 3
    · rw [if_pos hgt0]
      omega
    · rw [if_neg hgt0]
      rcases findLastSentenceEnd_le (jsSlice t 0 m) with hse | ⟨hse1, hse2⟩
      · rw [hse, if_neg (by omega)]
        rcases jsLastIndexOf_cases (jsSlice t 0 m) [nlChar] (by simp) with hnl | ⟨j, hnl, hjle⟩
        · rw [hnl, if_neg (by omega)]
          rcases jsLastIndexOf_cases (jsSlice t 0 m) [' '] (by simp) with hsp | ⟨k, hsp, hkle⟩
          · rw [hsp, if_neg (by omega)]
            omega
          · rw [hsp]
            simp only [List.length_cons, List.length_nil] at hkle
            by_cases hgt2 : (k : Int) * 10 > m * 3
            · rw [if_pos hgt2]
              omega
            · rw [if_neg hgt2]
              omega
        · rw [hnl]
          simp only [List.length_cons, List.length_nil] at hjle
          by_cases hgt2 : (j : Int) * 10 > m * 3
          · rw [if_pos hgt2]
            omega
          · rw [if_neg hgt2]
            rcases jsLastIndexOf_cases (jsSlice t 0 m) [' '] (by simp) with hsp | ⟨k, hsp, hkle⟩
            · rw [hsp, if_neg (by omega)]
              omega
            · rw [hsp]
              simp only [List.length_cons, List.length_nil] at hkle
              by_cases hgt3 : (k : Int) * 10 > m * 3
              · rw [if_pos hgt3]
                omega
              · rw [if_neg hgt3]
                omega
      · by_cases hgt : findLastSentenceEnd (jsSlice t 0 m) * 10 > m * 4
        · rw [if_pos hgt]
          omega
        · rw [if_neg hgt]
          rcases jsLastIndexOf_cases (jsSlice t 0 m) [nlChar] (by simp) with hnl | ⟨j, hnl, hjle⟩
          · rw [hnl, if_neg (by omega)]
            rcases jsLastIndexOf_cases (jsSlice t 0 m) [' '] (by simp) with hsp | ⟨k, hsp, hkle⟩
            · rw [hsp, if_neg (by omega)]
              omega
            · rw [hsp]
              simp only [List.length_cons, List.length_nil] at hkle
              by_cases hgt2 : (k : Int) * 10 > m * 3
              · rw [if_pos hgt2]
                omega
              · rw [if_neg hgt2]
                omega
          · rw [hnl]
            simp only [List.length_cons, List.length_nil] at hjle
            by_cases hgt2 : (j : Int) * 10 > m * 3
            · rw [if_pos hgt2]
              omega
            · rw [if_neg hgt2]
              rcases jsLastIndexOf_cases (jsSlice t 0 m) [' '] (by simp) with hsp | ⟨k, hsp, hkle⟩
              · rw [hsp, if_neg (by omega)]
                omega
              · rw [hsp]
                simp only [List.length_cons, List.length_nil] at hkle
                by_cases hgt3 : (k : Int) * 10 > m * 3
                · rw [if_pos hgt3]
                  omega
                · rw [if_neg hgt3]
                  omega


/-! ## C1: every fragment fits in maxLength -/

theorem chunkPlainTextAux_le (fuel : Nat) :
    ∀ (rem : Str) (m : Int) (acc out : List Str), 0 < m →
      (∀ c ∈ acc, (c.length : Int) ≤ m) →
      chunkPlainTextAux fuel rem m acc = some out →
      ∀ c ∈ out, (c.length : Int) ≤ m := by
  induction fuel with
  | zero =>
    intro rem m acc out _ _ h
    exact absurd h (by simp [chunkPlainTextAux])
  | succ n ih =>
    intro rem m acc out hm hacc h
    rw [chunkPlainTextAux] at h
    by_cases h0 : rem.length = 0
    · rw [if_pos h0] at h
      cases h
      exact hacc
    · rw [if_neg h0] at h
      by_cases h1 : (rem.length : Int) ≤ m
      · rw [if_pos h1] at h
        cases h
        intro c hc
        rcases List.mem_append.mp hc with hc | hc
        · exact hacc c hc
        · rw [List.mem_singleton.mp hc]
          have := trim_length_le rem
          omega
      · rw [if_neg h1] at h
        refine ih _ m _ out hm ?_ h
        intro c hc
        rcases List.mem_append.mp hc with hc | hc
        · exact hacc c hc
        · rw [List.mem_singleton.mp hc]
          have hsp := findBestSplitPoint_bounds rem m hm
          have hlen : ((jsSlice rem 0 (findBestSplitPoint rem m)).length : Int) ≤
              findBestSplitPoint rem m := searchText_len_le rem _ (by omega)
          have := trim_length_le (jsSlice rem 0 (findBestSplitPoint rem m))
          omega

theorem chunkPlainText_le (fuel : Nat) (t : Str) (m : Int) (hm : 0 < m)
    (out : List Str) (h : chunkPlainText fuel t m = some out) :
    ∀ c ∈ out, (c.length : Int) ≤ m := by
  rw [chunkPlainText] at h
  cases haux : chunkPlainTextAux fuel t m [] with
  | none => rw [haux] at h; cases h
  | some cs =>
    rw [haux] at h
    cases h
    intro c hc
    exact chunkPlainTextAux_le fuel t m [] cs hm (by simp) haux c (List.mem_filter.mp hc).1

theorem wrapLongLineAux_le (cm : Int) (hcm : 0 ≤ cm) (fuel : Nat) :
    ∀ (rem : Str) (acc out : List Str),
      (∀ c ∈ acc, (c.length : Int) ≤ cm) →
      wrapLongLineAux fuel rem cm acc = some out →
      ∀ c ∈ out, (c.length : Int) ≤ cm := by
  induction fuel with
  | zero =>
    intro rem acc out _ h
    exact absurd h (by simp [wrapLongLineAux])
  | succ n ih =>
    intro rem acc out hacc h
    rw [wrapLongLineAux] at h
    by_cases hg : (rem.length : Int) > cm
    · rw [if_pos hg] at h
      refine ih _ _ out ?_ h
      intro c hc
      rcases List.mem_append.mp hc with hc | hc
      · exact hacc c hc
      · rw [List.mem_singleton.mp hc]
        rcases jsLastIndexOfFrom_cases rem [' '] cm with hs0 | ⟨i, hs0, hocc, hile⟩
        · rw [hs0]
          rw [if_pos (by omega)]
          exact searchText_len_le rem cm hcm
        · rw [hs0]
          by_cases hle : (i : Int) ≤ 0
          · rw [if_pos hle]
            exact searchText_len_le rem cm hcm
          · rw [if_neg hle]
            have hi : (i : Int) ≤ cm := by
              have h1 : i ≤ cm.toNat := le_trans hile (Nat.min_le_left _ _)
              have h2 : ((cm.toNat : Int)) = cm := Int.toNat_of_nonneg hcm
              omega
            have hlen : ((jsSlice rem 0 (i : Int)).length : Int) ≤ (i : Int) :=
              searchText_len_le rem _ (by omega)
            omega
    · rw [if_neg hg] at h
      cases h
      by_cases hne : rem.length ≠ 0
      · rw [if_pos hne]
        intro c hc
        rcases List.mem_append.mp hc with hc | hc
        · exact hacc c hc
        · rw [List.mem_singleton.mp hc]
          omega
      · rw [if_neg hne]
        exact hacc

theorem wrapLongLineAux_neg (cm : Int) (hcm : cm < 0) (fuel : Nat) :
    ∀ (rem : Str) (acc : List Str), wrapLongLineAux fuel rem cm acc = none := by
  induction fuel with
  | zero => intro rem acc; rfl
  | succ n ih =>
    intro rem acc
    rw [wrapLongLineAux, if_pos (by omega : (rem.length : Int) > cm)]
    exact ih _ _

theorem wrapCodeBlock_length (c lang : Str) :
    (wrapCodeBlock c lang).length = c.length + lang.length + 8 := by
  simp only [wrapCodeBlock, fence3, List.length_append, List.length_cons, List.length_nil]
  omega

theorem splitCodeCore_le (fuel : Nat) (lang : Str) (cm : Int) (hcm : 0 ≤ cm) :
    ∀ (lines : List Str) (cc : Str) (chunks out : List Str),
      ((cc.length : Int) ≤ cm) →
      (∀ c ∈ chunks, (c.length : Int) ≤ cm + lang.length + 8) →
      splitCodeCore fuel lang cm lines cc chunks = some out →
      ∀ c ∈ out, (c.length : Int) ≤ cm + lang.length + 8 := by
  intro lines
  induction lines with
  | nil =>
    intro cc chunks out hcc hchunks h
    rw [splitCodeCore] at h
    cases h
    by_cases hne : cc.length ≠ 0
    · rw [if_pos hne]
      intro c hc
      rcases List.mem_append.mp hc with hc | hc
      · exact hchunks c hc
      · rw [List.mem_singleton.mp hc, wrapCodeBlock_length]
        push_cast
        omega
    · rw [if_neg hne]
      exact hchunks
  | cons line rest ih =>
    intro cc chunks out hcc hchunks h
    rw [splitCodeCore] at h
    by_cases hbig : (line.length : Int) > cm
    · rw [if_pos hbig] at h
      cases hw : wrapLongLineAux fuel line cm [] with
      | none => rw [hw] at h; cases h
      | some wrapped =>
        rw [hw] at h
        refine ih [] _ out (by simp; omega) ?_ h
        intro c hc
        rcases List.mem_append.mp hc with hc | hc
        · by_cases hne : cc.length ≠ 0
          · rw [if_pos hne] at hc
            rcases List.mem_append.mp hc with hc | hc
            · exact hchunks c hc
            · rw [List.mem_singleton.mp hc, wrapCodeBlock_length]
              push_cast
              omega
          · rw [if_neg hne] at hc
            exact hchunks c hc
        · obtain ⟨w, hwmem, hweq⟩ := List.mem_map.mp hc
          have := wrapLongLineAux_le cm hcm fuel line [] wrapped (by simp) hw w hwmem
          rw [← hweq, wrapCodeBlock_length]
          push_cast
          omega
    · rw [if_neg hbig] at h
      by_cases hfit : (cc.length : Int) + line.length + 1 > cm
      · rw [if_pos hfit] at h
        refine ih line _ out (by omega) ?_ h
        intro c hc
        rcases List.mem_append.mp hc with hc | hc
        · exact hchunks c hc
        · rw [List.mem_singleton.mp hc, wrapCodeBlock_length]
          push_cast
          omega
      · rw [if_neg hfit] at h
        refine ih _ _ out ?_ hchunks h
        by_cases hne : cc.length ≠ 0
        · rw [if_pos hne]
          simp only [List.length_append, List.length_cons, List.length_nil]
          push_cast
          omega
        · rw [if_neg hne]
          simp only [List.length_append, List.length_nil]
          push_cast
          omega

theorem splitCodeCore_neg (fuel : Nat) (lang : Str) (cm : Int) (hcm : cm < 0)
    (line : Str) (rest : List Str) (cc : Str) (chunks : List Str) :
    splitCodeCore fuel lang cm (line :: rest) cc chunks = none := by
  rw [splitCodeCore, if_pos (by omega : (line.length : Int) > cm),
    wrapLongLineAux_neg cm hcm fuel line []]

theorem splitLongCodeBlock_le (fuel : Nat) (s : Str) (m : Int) (hm : 0 < m)
    (out : List Str) (h : splitLongCodeBlock fuel s m = some out) :
    ∀ c ∈ out, (c.length : Int) ≤ m := by
  rw [splitLongCodeBlock] at h
  cases hmatch : jsCodeBlockMatch s with
  | none =>
    rw [hmatch] at h
    exact chunkPlainText_le fuel s m hm out h
  | some p =>
    obtain ⟨lang, content⟩ := p
    rw [hmatch] at h
    simp only at h
    by_cases hcm : 0 ≤ m - (6 + (lang.length : Int) + 2)
    · intro c hc
      have := splitCodeCore_le fuel lang (m - (6 + (lang.length : Int) + 2)) hcm
        (content.splitOn nlChar) [] [] out (by simp; omega) (by simp) h c hc
      omega
    · cases hl : content.splitOn nlChar with
      | nil =>
        rw [hl] at h
        rw [splitCodeCore] at h
        simp only [List.length_nil, ne_eq, not_true_eq_false, if_neg, ite_false] at h
        cases h
        intro c hc
        simp at hc
      | cons line rest =>
        rw [hl, splitCodeCore_neg fuel lang _ (by omega) line rest [] []] at h
        cases h

theorem chunkWithCodeBlocksAux_le (fuel : Nat) (m : Int) (hm : 0 < m) :
    ∀ (segs : List Str) (cc : Str) (chunks out : List Str),
      ((cc.length : Int) ≤ m) →
      (∀ c ∈ chunks, (c.length : Int) ≤ m) →
      chunkWithCodeBlocksAux fuel m segs cc chunks = some out →
      ∀ c ∈ out, (c.length : Int) ≤ m := by
  intro segs
  induction segs with
  | nil =>
    intro cc chunks out hcc hchunks h
    rw [chunkWithCodeBlocksAux] at h
    cases h
    by_cases hne : (trim cc).length ≠ 0
    · rw [if_pos hne]
      intro c hc
      rcases List.mem_append.mp hc with hc | hc
      · exact hchunks c hc
      · rw [List.mem_singleton.mp hc]
        have := trim_length_le cc
        omega
    · rw [if_neg hne]
      exact hchunks
  | cons seg rest ih =>
    intro cc chunks out hcc hchunks h
    rw [chunkWithCodeBlocksAux] at h
    by_cases hbig : (seg.length : Int) > m
    · rw [if_pos hbig] at h
      have hchunks1 : ∀ c ∈ (if cc.length ≠ 0 then chunks ++ [trim cc] else chunks),
          (c.length : Int) ≤ m := by
        by_cases hne : cc.length ≠ 0
        · rw [if_pos hne]
          intro c hc
          rcases List.mem_append.mp hc with hc | hc
          · exact hchunks c hc
          · rw [List.mem_singleton.mp hc]
            have := trim_length_le cc
            omega
        · rw [if_neg hne]
          exact hchunks
      cases hsub : (if fence3.isPrefixOf seg then splitLongCodeBlock fuel seg m
          else chunkPlainText fuel seg m) with
      | none => rw [hsub] at h; cases h
      | some sub =>
        rw [hsub] at h
        have hsuble : ∀ c ∈ sub, (c.length : Int) ≤ m := by
          by_cases hpre : fence3.isPrefixOf seg = true
          · rw [if_pos hpre] at hsub
            exact splitLongCodeBlock_le fuel seg m hm sub hsub
          · rw [if_neg hpre] at hsub
            exact chunkPlainText_le fuel seg m hm sub hsub
        refine ih [] _ out (by simp; omega) ?_ h
        intro c hc
        rcases List.mem_append.mp hc with hc | hc
        · exact hchunks1 c hc
        · exact hsuble c hc
    · rw [if_neg hbig] at h
      by_cases hfit : (cc.length : Int) + seg.length > m
      · rw [if_pos hfit] at h
        refine ih seg _ out (by omega) ?_ h
        intro c hc
        rcases List.mem_append.mp hc with hc | hc
        · exact hchunks c hc
        · rw [List.mem_singleton.mp hc]
          have := trim_length_le cc
          omega
      · rw [if_neg hfit] at h
        refine ih _ _ out ?_ hchunks h
        simp only [List.length_append]
        push_cast
        omega

/-- C1: for every positive maxLength, whenever the chunking entry point
returns a fragment sequence — on plain text, text with balanced fences, or
over-length fenced blocks alike — every fragment has length at most
maxLength. -/
theorem chunkMessage_le (fuel : Nat) (t : Str) (m : Int) (l : List Str)
    (hm : 0 < m) (h : chunkMessage fuel t m = some l) :
    ∀ c ∈ l, (c.length : Int) ≤ m := by
  rw [chunkMessage] at h
  by_cases h1 : (t.length : Int) ≤ m
  · rw [if_pos h1] at h
    cases h
    intro c hc
    rw [List.mem_singleton.mp hc]
    exact h1
  · rw [if_neg h1] at h
    by_cases h2 : containsFence t = true
    · rw [h2] at h
      simp only [if_true] at h
      rw [chunkWithCodeBlocks] at h
      cases haux : chunkWithCodeBlocksAux fuel m (splitByCodeBlocks t) [] [] with
      | none => rw [haux] at h; cases h
      | some cs =>
        rw [haux] at h
        cases h
        intro c hc
        exact chunkWithCodeBlocksAux_le fuel m hm (splitByCodeBlocks t) [] [] cs
          (by simp; omega) (by simp) haux c (List.mem_filter.mp hc).1
    · rw [eq_false_of_ne_true h2] at h
      simp only [Bool.false_eq_true, if_false] at h
      exact chunkPlainText_le fuel t m hm l h

/-- Concrete over-length fenced input for the C1 witness. -/
def fencedT : Str :=
  "```python\nline one is here\nline two is here\nline three is here\n```".toList

/-- Witness for C1: the first fragment of a concrete chunking run of an
over-length fenced block stays within the limit. -/
theorem chunkMessage_le_witness :
    ((("```python\n\n```".toList : Str)).length : Int) ≤ 30 :=
  chunkMessage_le 100 fencedT 30
    ["```python\n\n```".toList, "```python\nline one is here\n```".toList,
     "```python\nline two is here\n```".toList, "```python\nline three is\n```".toList,
     "```python\nhere\n```".toList]
    (by decide) (by decide) _ (by decide)


/-! ## C2: fence safety.  Counting fence markers -/

/-- Greedy, left-to-right count of non-overlapping occurrences of the
triple-backtick fence marker (the way the global regex scans them). -/
def countFence : Str → Nat
  | a :: b :: c :: rest =>
    if a = btChar ∧ b = btChar ∧ c = btChar then 1 + countFence rest
    else countFence (b :: c :: rest)
  | _ => 0

/-- No fence marker occurs anywhere in `s`. -/
def noFence (s : Str) : Prop := ¬ fence3 <:+: s

theorem noFence_mono (a s : Str) (h : a <:+: s) (hs : noFence s) : noFence a :=
  fun hf => hs (hf.trans h)

theorem fence3_prefix_iff (a b c : Char) (rest : Str) :
    fence3 <+: (a :: b :: c :: rest) ↔ a = btChar ∧ b = btChar ∧ c = btChar := by
  simp only [fence3, List.cons_prefix_cons, List.nil_prefix, and_true]
  tauto

theorem fence3_not_prefix_short (s : Str) (h : s.length < 3) : ¬ fence3 <+: s := by
  intro hp
  have := hp.length_le
  simp [fence3] at this
  omega

theorem countFence_cons_of_not_head (x : Char) (t : Str)
    (h : ¬ fence3 <+: (x :: t)) : countFence (x :: t) = countFence t := by
  cases t with
  | nil => rfl
  | cons y t2 =>
    cases t2 with
    | nil => rfl
    | cons z rest =>
      rw [countFence, if_neg]
      intro hc
      exact h ((fence3_prefix_iff x y z rest).mpr hc)

theorem countFence_fence_cons (rest : Str) :
    countFence (fence3 ++ rest) = 1 + countFence rest := by
  show countFence (btChar :: btChar :: btChar :: rest) = 1 + countFence rest
  rw [countFence, if_pos ⟨rfl, rfl, rfl⟩]

theorem countFence_pos_of_prefix (s : Str) (h : fence3 <+: s) : 0 < countFence s := by
  obtain ⟨u, hu⟩ := h
  rw [← hu, countFence_fence_cons]
  omega

theorem countFence_pos_of_infix (s : Str) (h : fence3 <:+: s) : 0 < countFence s := by
  induction s with
  | nil =>
    exfalso
    have := h.length_le
    simp [fence3] at this
  | cons x t ih =>
    rcases List.infix_cons_iff.mp h with hp | hi
    · exact countFence_pos_of_prefix _ hp
    · by_cases hp : fence3 <+: (x :: t)
      · exact countFence_pos_of_prefix _ hp
      · rw [countFence_cons_of_not_head x t hp]
        exact ih hi

theorem countFence_eq_zero_of_noFence (s : Str) (h : noFence s) : countFence s = 0 := by
  induction s with
  | nil => rfl
  | cons x t ih =>
    have hp : ¬ fence3 <+: (x :: t) := fun hp => h hp.isInfix
    rw [countFence_cons_of_not_head x t hp]
    exact ih (noFence_mono t (x :: t) (List.infix_cons_iff.mpr (Or.inr (List.infix_refl t))) h)

theorem noFence_of_countFence_zero (s : Str) (h : countFence s = 0) : noFence s := by
  intro hi
  have := countFence_pos_of_infix s hi
  omega

theorem countFence_append_noBt_left (a b : Str) (ha : ∀ c ∈ a, c ≠ btChar) :
    countFence (a ++ b) = countFence b := by
  induction a with
  | nil => rfl
  | cons x t ih =>
    rw [List.cons_append, countFence_cons_of_not_head]
    · exact ih (fun c hc => ha c (by simp [hc]))
    · intro hp
      rcases List.cons_prefix_cons.mp hp with ⟨hx, _⟩
      exact ha x (by simp) hx.symm

theorem countFence_append_sep (a : Str) (d : Char) (b : Str)
    (ha : noFence a) (hd : d ≠ btChar) :
    countFence (a ++ d :: b) = countFence b := by
  induction a with
  | nil =>
    rw [List.nil_append, countFence_cons_of_not_head]
    intro hp
    exact hd (List.cons_prefix_cons.mp hp).1.symm
  | cons x t ih =>
    have hnt : noFence t :=
      noFence_mono t (x :: t) (List.infix_cons_iff.mpr (Or.inr (List.infix_refl t))) ha
    rw [List.cons_append, countFence_cons_of_not_head]
    · exact ih hnt
    · intro hp
      cases t with
      | nil =>
        rcases List.cons_prefix_cons.mp hp with ⟨hx, hp2⟩
        rcases List.cons_prefix_cons.mp hp2 with ⟨hdd, _⟩
        exact hd hdd.symm
      | cons y t2 =>
        cases t2 with
        | nil =>
          rcases List.cons_prefix_cons.mp hp with ⟨hx, hp2⟩
          rcases List.cons_prefix_cons.mp hp2 with ⟨hy, hp3⟩
          rcases List.cons_prefix_cons.mp hp3 with ⟨hdd, _⟩
          exact hd hdd.symm
        | cons z t3 =>
          refine ha ?_
          refine List.IsPrefix.isInfix ?_
          rcases List.cons_prefix_cons.mp hp with ⟨hx, hp2⟩
          rcases List.cons_prefix_cons.mp hp2 with ⟨hy, hp3⟩
          rcases List.cons_prefix_cons.mp hp3 with ⟨hz, _⟩
          rw [fence3_prefix_iff]
          exact ⟨hx.symm, hy.symm, hz.symm⟩

theorem countFence_append_noFence_left (a b : Str)
    (ha : noFence a) (hlast : a.getLast? ≠ some btChar) :
    countFence (a ++ b) = countFence b := by
  induction a with
  | nil => rfl
  | cons x t ih =>
    have hnt : noFence t :=
      noFence_mono t (x :: t) (List.infix_cons_iff.mpr (Or.inr (List.infix_refl t))) ha
    rw [List.cons_append, countFence_cons_of_not_head]
    · cases t with
      | nil => rfl
      | cons y t2 =>
        refine ih hnt ?_
        simpa [List.getLast?_cons_cons] using hlast
    · intro hp
      cases t with
      | nil =>
        rcases List.cons_prefix_cons.mp hp with ⟨hx, _⟩
        exact hlast (by simp [hx.symm])
      | cons y t2 =>
        cases t2 with
        | nil =>
          rcases List.cons_prefix_cons.mp hp with ⟨hx, hp2⟩
          rcases List.cons_prefix_cons.mp hp2 with ⟨hy, _⟩
          exact hlast (by simp [List.getLast?_cons_cons, hy.symm])
        | cons z t3 =>
          refine ha (List.IsPrefix.isInfix ?_)
          rcases List.cons_prefix_cons.mp hp with ⟨hx, hp2⟩
          rcases List.cons_prefix_cons.mp hp2 with ⟨hy, hp3⟩
          rcases List.cons_prefix_cons.mp hp3 with ⟨hz, _⟩
          rw [fence3_prefix_iff]
          exact ⟨hx.symm, hy.symm, hz.symm⟩

theorem noFence_of_noBt (b : Str) (hb : ∀ c ∈ b, c ≠ btChar) : noFence b := by
  intro hi
  obtain ⟨u, v, huv⟩ := hi
  exact hb btChar (by rw [← huv]; simp [fence3]) rfl

theorem countFence_append_noBt_right (b : Str) (hb : ∀ c ∈ b, c ≠ btChar) :
    ∀ (n : Nat) (a : Str), a.length ≤ n → countFence (a ++ b) = countFence a := by
  intro n
  induction n with
  | zero =>
    intro a hlen
    have ha : a = [] := List.eq_nil_of_length_eq_zero (by omega)
    subst ha
    rw [List.nil_append, countFence_eq_zero_of_noFence b (noFence_of_noBt b hb)]
    rfl
  | succ n ih =>
    intro a hlen
    cases a with
    | nil =>
      rw [List.nil_append, countFence_eq_zero_of_noFence b (noFence_of_noBt b hb)]
      rfl
    | cons x t =>
      by_cases hp : fence3 <+: (x :: t)
      · obtain ⟨u, hu⟩ := hp
        have hxa : x :: t = btChar :: btChar :: btChar :: u := by
          simpa [fence3] using hu.symm
        have hul : u.length ≤ n := by
          have h1 : (x :: t).length = u.length + 3 := by rw [hxa]; simp
          simp only [List.length_cons] at hlen h1
          omega
        rw [hxa]
        have h1 : (btChar :: btChar :: btChar :: u) ++ b = fence3 ++ (u ++ b) := by
          simp [fence3]
        have h2 : (btChar :: btChar :: btChar :: u) = fence3 ++ u := by
          simp [fence3]
        rw [h1, countFence_fence_cons, h2, countFence_fence_cons, ih u hul]
      · have hnp2 : ¬ fence3 <+: (x :: (t ++ b)) := by
          intro hp2
          cases t with
          | nil =>
            cases b with
            | nil =>
              exact fence3_not_prefix_short _ (by simp) hp2
            | cons b0 b1 =>
              cases b1 with
              | nil => exact fence3_not_prefix_short _ (by simp) hp2
              | cons b0' b2 =>
                rcases (fence3_prefix_iff _ _ _ _).mp hp2 with ⟨_, hb0, _⟩
                exact hb b0 (by simp) hb0
          | cons y t2 =>
            cases t2 with
            | nil =>
              cases b with
              | nil => exact fence3_not_prefix_short _ (by simp) hp2
              | cons b0 b1 =>
                rcases (fence3_prefix_iff _ _ _ _).mp hp2 with ⟨_, _, hb0⟩
                exact hb b0 (by simp) hb0
            | cons z t3 =>
              rcases (fence3_prefix_iff _ _ _ _).mp hp2 with ⟨hx, hy, hz⟩
              exact hp ((fence3_prefix_iff _ _ _ _).mpr ⟨hx, hy, hz⟩)
        rw [List.cons_append, countFence_cons_of_not_head _ _ hnp2,
          countFence_cons_of_not_head x t hp]
        refine ih t ?_
        simp only [List.length_cons] at hlen
        omega


theorem ws_ne_bt (c : Char) (h : isWsChar c = true) : c ≠ btChar := by
  intro he
  subst he
  exact absurd h (by decide)

theorem countFence_trimStart (s : Str) : countFence (trimStart s) = countFence s := by
  conv_rhs => rw [← List.takeWhile_append_dropWhile isWsChar s]
  rw [countFence_append_noBt_left (s.takeWhile isWsChar) (s.dropWhile isWsChar)
    (fun c hc => ws_ne_bt c (List.mem_takeWhile_imp hc))]
  rfl

theorem trimEnd_decomp (s : Str) :
    s = trimEnd s ++ (s.reverse.takeWhile isWsChar).reverse := by
  unfold trimEnd
  rw [← List.reverse_append, List.takeWhile_append_dropWhile, List.reverse_reverse]

theorem countFence_trimEnd (s : Str) : countFence (trimEnd s) = countFence s := by
  conv_rhs => rw [trimEnd_decomp s]
  rw [countFence_append_noBt_right _
    (fun c hc => ws_ne_bt c (List.mem_takeWhile_imp (List.mem_reverse.mp hc)))
    (trimEnd s).length (trimEnd s) le_rfl]

theorem countFence_trim (s : Str) : countFence (trim s) = countFence s := by
  unfold trim
  rw [countFence_trimEnd, countFence_trimStart]

theorem trim_isInfix (s : Str) : trim s <:+: s := by
  have h1 : trimStart s <:+ s := List.dropWhile_suffix isWsChar
  have h2 : trimEnd (trimStart s) <+: trimStart s := by
    conv_rhs => rw [trimEnd_decomp (trimStart s)]
    exact List.prefix_append _ _
  exact h2.isInfix.trans h1.isInfix

theorem findFence_none_spec (s : Str) (h : findFence s = none) :
    ∀ k, ¬ fence3 <+: s.drop k := by
  induction s with
  | nil =>
    intro k hp
    rw [List.drop_nil] at hp
    exact fence3_not_prefix_short [] (by simp) hp
  | cons c t ih =>
    rw [findFence] at h
    by_cases hp : fence3.isPrefixOf (c :: t) = true
    · rw [if_pos hp] at h
      cases h
    · rw [if_neg hp] at h
      have ht : findFence t = none := by
        cases hft : findFence t with
        | none => rfl
        | some j => rw [hft] at h; cases h
      intro k
      cases k with
      | zero =>
        rw [List.drop_zero]
        intro hpre
        exact hp (List.isPrefixOf_iff_prefix.mpr hpre)
      | succ k2 =>
        rw [List.drop_succ_cons]
        exact ih ht k2

theorem findFence_some_spec (s : Str) (i : Nat) (h : findFence s = some i) :
    fence3 <+: s.drop i ∧ ∀ k < i, ¬ fence3 <+: s.drop k := by
  induction s generalizing i with
  | nil => cases h
  | cons c t ih =>
    rw [findFence] at h
    by_cases hp : fence3.isPrefixOf (c :: t) = true
    · rw [if_pos hp] at h
      cases h
      refine ⟨by rw [List.drop_zero]; exact List.isPrefixOf_iff_prefix.mp hp, ?_⟩
      intro k hk
      omega
    · rw [if_neg hp] at h
      cases hft : findFence t with
      | none => rw [hft] at h; cases h
      | some j =>
        rw [hft] at h
        have hi : i = j + 1 := by
          have : some (j + 1) = some i := h
          exact (Option.some_inj.mp this).symm
        subst hi
        obtain ⟨h1, h2⟩ := ih j hft
        refine ⟨by rwa [List.drop_succ_cons], ?_⟩
        intro k hk
        cases k with
        | zero =>
          rw [List.drop_zero]
          intro hpre
          exact hp (List.isPrefixOf_iff_prefix.mpr hpre)
        | succ k2 =>
          rw [List.drop_succ_cons]
          exact h2 k2 (by omega)

theorem findFenceFrom_some_spec (s : Str) (k0 i : Nat) (h : findFenceFrom s k0 = some i) :
    k0 ≤ i ∧ fence3 <+: s.drop i ∧
      ∀ k, k0 ≤ k → k < i → ¬ fence3 <+: s.drop k := by
  unfold findFenceFrom at h
  cases hf : findFence (s.drop k0) with
  | none => rw [hf] at h; cases h
  | some j =>
    rw [hf] at h
    have hi : i = j + k0 := by
      have : some (j + k0) = some i := h
      exact (Option.some_inj.mp this).symm
    subst hi
    obtain ⟨h1, h2⟩ := findFence_some_spec _ j hf
    rw [List.drop_drop] at h1
    refine ⟨by omega, by rwa [Nat.add_comm k0 j] at h1, ?_⟩
    intro k hk0 hki hpre
    refine h2 (k - k0) (by omega) ?_
    rw [List.drop_drop, show k0 + (k - k0) = k from by omega]
    exact hpre

theorem findFenceFrom_none_spec (s : Str) (k0 : Nat) (h : findFenceFrom s k0 = none) :
    ∀ k, k0 ≤ k → ¬ fence3 <+: s.drop k := by
  unfold findFenceFrom at h
  have hf : findFence (s.drop k0) = none := by
    cases hf : findFence (s.drop k0) with
    | none => rfl
    | some j => rw [hf] at h; cases h
  intro k hk hpre
  refine findFence_none_spec _ hf (k - k0) ?_
  rw [List.drop_drop, Nat.add_comm, Nat.sub_add_cancel hk]
  exact hpre

theorem countFence_eq_countFence_drop (i : Nat) :
    ∀ s : Str, (∀ k < i, ¬ fence3 <+: s.drop k) →
      countFence s = countFence (s.drop i) := by
  induction i with
  | zero =>
    intro s _
    rw [List.drop_zero]
  | succ n ih =>
    intro s h
    cases s with
    | nil => rw [List.drop_nil]
    | cons c t =>
      have h0 : ¬ fence3 <+: (c :: t) := by
        have := h 0 (by omega)
        rwa [List.drop_zero] at this
      rw [countFence_cons_of_not_head c t h0, List.drop_succ_cons]
      refine ih t ?_
      intro k hk
      have := h (k + 1) (by omega)
      rwa [List.drop_succ_cons] at this

theorem noFence_iff_forall_drop (s : Str) :
    noFence s ↔ ∀ k, ¬ fence3 <+: s.drop k := by
  constructor
  · intro h k hp
    exact h (hp.isInfix.trans (List.drop_suffix k s).isInfix)
  · intro h hi
    obtain ⟨u, v, huv⟩ := hi
    refine h u.length ?_
    rw [← huv, List.append_assoc, List.drop_left]
    exact List.prefix_append _ _


/-! ## Structure of the segments produced by splitByCodeBlocks -/

theorem prefix_length_le_drop (s : Str) (k : Nat) (h : fence3 <+: s.drop k) :
    k + 3 ≤ s.length := by
  have := h.length_le
  rw [List.length_drop] at this
  simp only [fence3, List.length_cons, List.length_nil] at this
  by_cases hk : k ≤ s.length
  · omega
  · exfalso
    rw [List.drop_eq_nil_of_le (by omega)] at h
    exact fence3_not_prefix_short [] (by simp) h

theorem drop_fence_decomp (s : Str) (i : Nat) (h : fence3 <+: s.drop i) :
    s.drop i = fence3 ++ s.drop (i + 3) := by
  obtain ⟨u, hu⟩ := h
  have h3 : s.drop (i + 3) = u := by
    have h4 : (s.drop i).drop 3 = u := by rw [← hu]; simp [fence3]
    rwa [List.drop_drop] at h4
  rw [← hu, h3]

theorem sliceIdx_natCast (len n : Nat) : sliceIdx len (n : Int) = min n len := by
  unfold sliceIdx
  rw [if_neg (by omega)]
  simp

theorem slice_block_decomp (s : Str) (i j : Nat) (hij : i + 3 ≤ j)
    (hfi : fence3 <+: s.drop i) (hfj : fence3 <+: s.drop j) :
    jsSlice s (i : Int) ((j : Int) + 3) =
      fence3 ++ (s.drop (i + 3)).take (j - (i + 3)) ++ fence3 := by
  have hjlen : j + 3 ≤ s.length := prefix_length_le_drop s j hfj
  have hcast : ((j : Int) + 3) = ((j + 3 : Nat) : Int) := by push_cast; ring
  unfold jsSlice
  rw [hcast, sliceIdx_natCast, sliceIdx_natCast]
  rw [min_eq_left hjlen, min_eq_left (by omega)]
  rw [List.drop_take]
  rw [drop_fence_decomp s i hfi]
  rw [List.take_append_eq_append_take]
  have hf3 : fence3.length = 3 := by simp [fence3]
  rw [List.take_of_length_le (le_trans (le_of_eq hf3) (by omega)), hf3]
  have harith : j + 3 - i - 3 = (j - (i + 3)) + 3 := by omega
  rw [harith, List.take_add]
  have hdd : (s.drop (i + 3)).drop (j - (i + 3)) = s.drop j := by
    rw [List.drop_drop]
    first
    | rfl
    | (congr 1 <;> omega)
  rw [hdd, drop_fence_decomp s j hfj]
  rw [List.take_left' hf3, List.append_assoc]

theorem interior_noFence (s : Str) (i j : Nat) (hij : i + 3 ≤ j)
    (hfj : fence3 <+: s.drop j)
    (hmin : ∀ k, i + 3 ≤ k → k < j → ¬ fence3 <+: s.drop k) :
    noFence ((s.drop (i + 3)).take (j - (i + 3))) := by
  have hjlen : j + 3 ≤ s.length := prefix_length_le_drop s j hfj
  set int := (s.drop (i + 3)).take (j - (i + 3)) with hint
  have hintlen : int.length = j - (i + 3) := by
    rw [hint, List.length_take, List.length_drop]
    omega
  rw [noFence_iff_forall_drop]
  intro k hpre
  have hk3 : k + 3 ≤ int.length := prefix_length_le_drop int k hpre
  have hdt : int.drop k = (s.drop (i + 3 + k)).take (j - (i + 3) - k) := by
    rw [hint, List.drop_take, List.drop_drop]
  rw [hdt] at hpre
  have hpre2 : fence3 <+: s.drop (i + 3 + k) :=
    hpre.trans (List.take_prefix _ _)
  exact hmin (i + 3 + k) (by omega) (by omega) hpre2

theorem interior_last_ne_bt (s : Str) (i j : Nat) (hij : i + 3 ≤ j)
    (hfj : fence3 <+: s.drop j)
    (hmin : ∀ k, i + 3 ≤ k → k < j → ¬ fence3 <+: s.drop k) :
    ((s.drop (i + 3)).take (j - (i + 3))).getLast? ≠ some btChar := by
  have hjlen : j + 3 ≤ s.length := prefix_length_le_drop s j hfj
  set int := (s.drop (i + 3)).take (j - (i + 3)) with hint
  have hintlen : int.length = j - (i + 3) := by
    rw [hint, List.length_take, List.length_drop]
    omega
  intro hlast
  obtain ⟨int', hint'⟩ := List.getLast?_eq_some_iff.mp hlast
  have hlen' : int'.length = j - (i + 3) - 1 := by
    have := congrArg List.length hint'
    rw [hintlen] at this
    simp at this
    omega
  have hne : j - (i + 3) ≥ 1 := by
    by_contra hc
    have : int = [] := by
      rw [hint]
      have : j - (i + 3) = 0 := by omega
      rw [this, List.take_zero]
    rw [this] at hint'
    exact absurd hint'.symm (by simp)
  have hu : s.drop (i + 3) = int ++ (s.drop (i + 3)).drop (j - (i + 3)) :=
    (List.take_append_drop _ _).symm
  have hdd : (s.drop (i + 3)).drop (j - (i + 3)) = s.drop j := by
    rw [List.drop_drop]
    first
    | rfl
    | (congr 1 <;> omega)
  have hstep : s.drop (i + 3 + int'.length) = btChar :: s.drop j := by
    have h1 : s.drop (i + 3 + int'.length) = (s.drop (i + 3)).drop int'.length := by
      rw [List.drop_drop]
    rw [h1]
    conv_lhs => rw [hu, hint']
    rw [List.append_assoc, List.drop_left' rfl, hdd]
    rfl
  have hpre : fence3 <+: s.drop (i + 3 + int'.length) := by
    rw [hstep, drop_fence_decomp s j hfj]
    refine (fence3_prefix_iff _ _ _ _).mpr ⟨rfl, rfl, rfl⟩
  exact hmin (i + 3 + int'.length) (by omega) (by omega) hpre

theorem pre_noFence (s : Str) (i : Nat)
    (hmin : ∀ k < i, ¬ fence3 <+: s.drop k) : noFence (s.take i) := by
  rw [noFence_iff_forall_drop]
  intro k hpre
  have hk3 : k + 3 ≤ (s.take i).length := prefix_length_le_drop _ k hpre
  rw [List.length_take] at hk3
  have hdt : (s.take i).drop k = (s.drop k).take (i - k) := List.drop_take i k s
  rw [hdt] at hpre
  exact hmin k (by omega) (hpre.trans (List.take_prefix _ _))

theorem pre_last_ne_bt (s : Str) (i : Nat) (hfi : fence3 <+: s.drop i)
    (hmin : ∀ k < i, ¬ fence3 <+: s.drop k) :
    (s.take i).getLast? ≠ some btChar := by
  have hilen : i + 3 ≤ s.length := prefix_length_le_drop s i hfi
  intro hlast
  obtain ⟨p', hp'⟩ := List.getLast?_eq_some_iff.mp hlast
  have hplen : (s.take i).length = i := by
    rw [List.length_take]
    omega
  have hlen' : p'.length = i - 1 := by
    have := congrArg List.length hp'
    rw [hplen] at this
    simp at this
    omega
  have hne : 1 ≤ i := by
    by_contra hc
    have hi0 : i = 0 := by omega
    rw [hi0, List.take_zero] at hp'
    exact absurd hp'.symm (by simp)
  have hs : s = (s.take i) ++ s.drop i := (List.take_append_drop _ _).symm
  have hstep : s.drop (i - 1) = btChar :: s.drop i := by
    conv_lhs => rw [hs, hp']
    rw [List.append_assoc, ← hlen']
    rw [List.drop_left]
    rfl
  have hpre : fence3 <+: s.drop (i - 1) := by
    rw [hstep, drop_fence_decomp s i hfi]
    exact (fence3_prefix_iff _ _ _ _).mpr ⟨rfl, rfl, rfl⟩
  exact hmin (i - 1) (by omega) hpre


/-- Well-formedness of the segment list produced by `splitByCodeBlocks` on
input with evenly many fence markers: every segment is either a complete
fenced block (fence, fence-free interior not ending in a backtick, fence)
or fence-free prose; prose that is not the final segment does not end in a
backtick (otherwise the scan would have matched earlier). -/
inductive ChainOk : List Str → Prop where
  | nil : ChainOk []
  | block (interior : Str) (rest : List Str) :
      noFence interior → interior.getLast? ≠ some btChar →
      ChainOk rest → ChainOk ((fence3 ++ interior ++ fence3) :: rest)
  | proseLast (seg : Str) : noFence seg → ChainOk [seg]
  | proseMid (seg : Str) (rest : List Str) :
      noFence seg → seg.getLast? ≠ some btChar → ChainOk rest →
      ChainOk (seg :: rest)

theorem ChainOk_cons_elim (x : Str) (rest : List Str) (h : ChainOk (x :: rest)) :
    ChainOk rest ∧
    ((∃ interior, x = fence3 ++ interior ++ fence3 ∧ noFence interior ∧
        interior.getLast? ≠ some btChar) ∨
     (noFence x ∧ (rest = [] ∨ x.getLast? ≠ some btChar))) := by
  cases h with
  | block interior rest hnf hlast hrest =>
    exact ⟨hrest, Or.inl ⟨interior, rfl, hnf, hlast⟩⟩
  | proseLast seg hnf => exact ⟨ChainOk.nil, Or.inr ⟨hnf, Or.inl rfl⟩⟩
  | proseMid seg rest hnf hlast hrest => exact ⟨hrest, Or.inr ⟨hnf, Or.inr hlast⟩⟩

theorem ChainOk_suffix (L1 L2 : List Str) (h : ChainOk (L1 ++ L2)) : ChainOk L2 := by
  induction L1 with
  | nil => exact h
  | cons x t ih =>
    rw [List.cons_append] at h
    exact ih (ChainOk_cons_elim x (t ++ L2) h).1

theorem ChainOk_take (L1 L2 : List Str) (h : ChainOk (L1 ++ L2)) : ChainOk L1 := by
  induction L1 with
  | nil => exact ChainOk.nil
  | cons x t ih =>
    rw [List.cons_append] at h
    obtain ⟨hrest, hh⟩ := ChainOk_cons_elim x (t ++ L2) h
    rcases hh with ⟨interior, hx, hnf, hlast⟩ | ⟨hnf, hor⟩
    · rw [hx]
      exact ChainOk.block interior t hnf hlast (ih hrest)
    · cases t with
      | nil => exact ChainOk.proseLast x hnf
      | cons a b =>
        rcases hor with he | hlast
        · exact absurd he (by simp)
        · exact ChainOk.proseMid x (a :: b) hnf hlast (ih hrest)

theorem countFence_block (interior rest : Str) (hnf : noFence interior)
    (hlast : interior.getLast? ≠ some btChar) :
    countFence ((fence3 ++ interior ++ fence3) ++ rest) = 2 + countFence rest := by
  rw [List.append_assoc (fence3 ++ interior) fence3 rest,
    List.append_assoc fence3 interior (fence3 ++ rest),
    countFence_fence_cons,
    countFence_append_noFence_left interior (fence3 ++ rest) hnf hlast,
    countFence_fence_cons]
  omega

theorem ChainOk_flatten_even (L : List Str) (h : ChainOk L) :
    Even (countFence L.flatten) := by
  induction h with
  | nil => exact ⟨0, rfl⟩
  | block interior rest hnf hlast hrest ih =>
    rw [List.flatten_cons, countFence_block interior _ hnf hlast]
    rcases ih with ⟨k, hk⟩
    exact ⟨k + 1, by omega⟩
  | proseLast seg hnf =>
    rw [List.flatten_cons, List.flatten_nil, List.append_nil,
      countFence_eq_zero_of_noFence seg hnf]
    exact ⟨0, rfl⟩
  | proseMid seg rest hnf hlast hrest ih =>
    rw [List.flatten_cons, countFence_append_noFence_left seg _ hnf hlast]
    exact ih


theorem drop_shift_noFence (s : Str) (i : Nat)
    (h : ∀ k, i ≤ k → ¬ fence3 <+: s.drop k) : noFence (s.drop i) := by
  rw [noFence_iff_forall_drop]
  intro k
  rw [List.drop_drop]
  exact h (i + k) (by omega)

theorem countFence_two_fences (s : Str) (i j : Nat) (hij : i + 3 ≤ j)
    (hfi : fence3 <+: s.drop i) (hfj : fence3 <+: s.drop j)
    (hmin1 : ∀ k < i, ¬ fence3 <+: s.drop k)
    (hmin2 : ∀ k, i + 3 ≤ k → k < j → ¬ fence3 <+: s.drop k) :
    countFence s = 2 + countFence (s.drop (j + 3)) := by
  rw [countFence_eq_countFence_drop i s hmin1]
  rw [drop_fence_decomp s i hfi, countFence_fence_cons]
  have hmid : countFence (s.drop (i + 3)) = countFence (s.drop j) := by
    have h1 := countFence_eq_countFence_drop (j - (i + 3)) (s.drop (i + 3)) ?_
    · rw [h1, List.drop_drop, show i + 3 + (j - (i + 3)) = j from by omega]
    · intro k hk
      rw [List.drop_drop]
      exact hmin2 (i + 3 + k) (by omega) (by omega)
  rw [hmid, drop_fence_decomp s j hfj, countFence_fence_cons]
  omega

theorem splitByCodeBlocksAux_chain (n : Nat) :
    ∀ s : Str, s.length ≤ n → Even (countFence s) →
      ChainOk (splitByCodeBlocksAux n s) := by
  induction n with
  | zero =>
    intro s hlen _
    have hs : s = [] := List.eq_nil_of_length_eq_zero (by omega)
    subst hs
    exact ChainOk.nil
  | succ n ih =>
    intro s hlen hev
    rw [splitByCodeBlocksAux]
    cases hf : findFence s with
    | none =>
      by_cases hne : s.length ≠ 0
      · rw [if_pos hne]
        refine ChainOk.proseLast s ?_
        rw [noFence_iff_forall_drop]
        exact findFence_none_spec s hf
      · rw [if_neg hne]
        exact ChainOk.nil
    | some i =>
      obtain ⟨hfi, hmin1⟩ := findFence_some_spec s i hf
      cases hff : findFenceFrom s (i + 3) with
      | none =>
        exfalso
        have hmin2 := findFenceFrom_none_spec s (i + 3) hff
        have h1 : countFence s = 1 := by
          rw [countFence_eq_countFence_drop i s hmin1]
          rw [drop_fence_decomp s i hfi, countFence_fence_cons]
          rw [countFence_eq_zero_of_noFence _ (drop_shift_noFence s (i + 3) hmin2)]
        rw [h1] at hev
        exact absurd hev (by decide)
      | some j =>
        obtain ⟨hij, hfj, hmin2⟩ := findFenceFrom_some_spec s (i + 3) j hff
        have hblock := slice_block_decomp s i j hij hfi hfj
        have hint1 := interior_noFence s i j hij hfj hmin2
        have hint2 := interior_last_ne_bt s i j hij hfj hmin2
        have hrec : ChainOk (splitByCodeBlocksAux n (s.drop (j + 3))) := by
          refine ih (s.drop (j + 3)) ?_ ?_
          · rw [List.length_drop]
            omega
          · have h2 := countFence_two_fences s i j hij hfi hfj hmin1 hmin2
            rw [h2] at hev
            rcases hev with ⟨k, hk⟩
            exact ⟨k - 1, by omega⟩
        dsimp only
        rw [hff]
        dsimp only
        rw [hblock]
        by_cases hi : 0 < i
        · rw [if_pos hi]
          rw [List.cons_append, List.nil_append]
          refine ChainOk.proseMid _ _ (pre_noFence s i hmin1)
            (pre_last_ne_bt s i hfi hmin1) ?_
          exact ChainOk.block _ _ hint1 hint2 hrec
        · rw [if_neg hi, List.nil_append]
          exact ChainOk.block _ _ hint1 hint2 hrec

theorem splitByCodeBlocks_chain (s : Str) (hev : Even (countFence s)) :
    ChainOk (splitByCodeBlocks s) :=
  splitByCodeBlocksAux_chain s.length s le_rfl hev


/-! ## Fence counting through the code-block splitting path -/

theorem jsSlice_zero_isInfix (s : Str) (k : Int) : jsSlice s 0 k <:+: s := by
  rw [jsSlice_zero_take]
  exact (List.take_prefix _ s).isInfix

theorem jsSliceFrom_isInfix (s : Str) (k : Int) : jsSliceFrom s k <:+: s :=
  (List.drop_suffix _ s).isInfix

theorem trim_noFence (s : Str) (h : noFence s) : noFence (trim s) :=
  noFence_mono _ _ (trim_isInfix s) h

theorem chunkPlainTextAux_noFence (fuel : Nat) :
    ∀ (rem : Str) (m : Int) (acc out : List Str),
      noFence rem → (∀ x ∈ acc, noFence x) →
      chunkPlainTextAux fuel rem m acc = some out → ∀ x ∈ out, noFence x := by
  induction fuel with
  | zero =>
    intro rem m acc out _ _ h
    exact absurd h (by simp [chunkPlainTextAux])
  | succ n ih =>
    intro rem m acc out hrem hacc h
    rw [chunkPlainTextAux] at h
    by_cases h0 : rem.length = 0
    · rw [if_pos h0] at h
      cases h
      exact hacc
    · rw [if_neg h0] at h
      by_cases h1 : (rem.length : Int) ≤ m
      · rw [if_pos h1] at h
        cases h
        intro x hx
        rcases List.mem_append.mp hx with hx | hx
        · exact hacc x hx
        · rw [List.mem_singleton.mp hx]
          exact trim_noFence rem hrem
      · rw [if_neg h1] at h
        refine ih _ m _ out ?_ ?_ h
        · exact noFence_mono _ _
            ((trim_isInfix _).trans (jsSliceFrom_isInfix rem _)) hrem
        · intro x hx
          rcases List.mem_append.mp hx with hx | hx
          · exact hacc x hx
          · rw [List.mem_singleton.mp hx]
            exact noFence_mono _ _
              ((trim_isInfix _).trans (jsSlice_zero_isInfix rem _)) hrem

theorem chunkPlainText_noFence (fuel : Nat) (t : Str) (m : Int) (out : List Str)
    (hnf : noFence t) (h : chunkPlainText fuel t m = some out) :
    ∀ x ∈ out, noFence x := by
  rw [chunkPlainText] at h
  cases haux : chunkPlainTextAux fuel t m [] with
  | none => rw [haux] at h; cases h
  | some cs =>
    rw [haux] at h
    cases h
    intro x hx
    exact chunkPlainTextAux_noFence fuel t m [] cs hnf (by simp) haux x
      (List.mem_filter.mp hx).1

theorem wrapLongLineAux_noFence (fuel : Nat) :
    ∀ (rem : Str) (cm : Int) (acc out : List Str),
      noFence rem → (∀ x ∈ acc, noFence x) →
      wrapLongLineAux fuel rem cm acc = some out → ∀ x ∈ out, noFence x := by
  induction fuel with
  | zero =>
    intro rem cm acc out _ _ h
    exact absurd h (by simp [wrapLongLineAux])
  | succ n ih =>
    intro rem cm acc out hrem hacc h
    rw [wrapLongLineAux] at h
    by_cases hg : (rem.length : Int) > cm
    · rw [if_pos hg] at h
      refine ih _ cm _ out ?_ ?_ h
      · exact noFence_mono _ _
          ((List.dropWhile_suffix isWsChar).isInfix.trans (jsSliceFrom_isInfix rem _)) hrem
      · intro x hx
        rcases List.mem_append.mp hx with hx | hx
        · exact hacc x hx
        · rw [List.mem_singleton.mp hx]
          exact noFence_mono _ _ (jsSlice_zero_isInfix rem _) hrem
    · rw [if_neg hg] at h
      cases h
      by_cases hne : rem.length ≠ 0
      · rw [if_pos hne]
        intro x hx
        rcases List.mem_append.mp hx with hx | hx
        · exact hacc x hx
        · rw [List.mem_singleton.mp hx]
          exact hrem
      · rw [if_neg hne]
        exact hacc

theorem mem_intercalate_isInfix (sep : Str) (parts : List Str) (x : Str) (hx : x ∈ parts) :
    x <:+: sep.intercalate parts := by
  induction parts with
  | nil => simp at hx
  | cons a t ih =>
    cases t with
    | nil =>
      have hxa : x = a := by simpa using hx
      subst hxa
      rw [show List.intercalate sep [x] = x from by simp [List.intercalate, List.intersperse]]
    | cons b t2 =>
      rw [show List.intercalate sep (a :: b :: t2)
            = a ++ (sep ++ List.intercalate sep (b :: t2)) from by
        simp [List.intercalate, List.intersperse]]
      rcases List.mem_cons.mp hx with h | h
      · rw [h]
        exact (List.prefix_append _ _).isInfix
      · have hi := ih h
        exact hi.trans ((List.suffix_append _ _).isInfix.trans
          (List.suffix_append _ _).isInfix)

theorem splitOn_noFence (content : Str) (hnc : noFence content) :
    ∀ l ∈ content.splitOn nlChar, noFence l := by
  intro l hl
  have hinf : l <:+: (([nlChar] : Str).intercalate (content.splitOn nlChar)) :=
    mem_intercalate_isInfix [nlChar] _ l hl
  rw [List.intercalate_splitOn] at hinf
  exact noFence_mono _ _ hinf hnc

theorem countFence_fence3 : countFence fence3 = 1 := by decide

theorem word_ne_bt (c : Char) (h : isWordChar c = true) : c ≠ btChar := by
  intro he
  subst he
  exact absurd h (by decide)

theorem countFence_wrapCodeBlock (c lang : Str) (hnc : noFence c)
    (hlang : ∀ x ∈ lang, isWordChar x = true) :
    countFence (wrapCodeBlock c lang) = 2 := by
  unfold wrapCodeBlock
  simp only [List.append_assoc]
  rw [countFence_fence_cons]
  rw [countFence_append_noBt_left lang _ (fun x hx => word_ne_bt x (hlang x hx))]
  have hnl : ¬ fence3 <+: (nlChar :: (c ++ ([nlChar] ++ fence3))) := by
    intro hp
    exact absurd (List.cons_prefix_cons.mp hp).1 (by decide)
  rw [show ([nlChar] ++ (c ++ ([nlChar] ++ fence3)) : Str)
        = nlChar :: (c ++ ([nlChar] ++ fence3)) from rfl]
  rw [countFence_cons_of_not_head _ _ hnl]
  rw [show (([nlChar] ++ fence3 : Str)) = nlChar :: fence3 from rfl]
  rw [countFence_append_sep c nlChar fence3 hnc (by decide)]
  rw [countFence_fence3]

theorem splitCodeCore_even (fuel : Nat) (lang : Str) (cm : Int)
    (hlang : ∀ x ∈ lang, isWordChar x = true) :
    ∀ (lines : List Str) (cc : Str) (chunks out : List Str),
      (∀ l ∈ lines, noFence l) → noFence cc →
      (∀ x ∈ chunks, Even (countFence x)) →
      splitCodeCore fuel lang cm lines cc chunks = some out →
      ∀ x ∈ out, Even (countFence x) := by
  intro lines
  induction lines with
  | nil =>
    intro cc chunks out hlines hcc hchunks h
    rw [splitCodeCore] at h
    cases h
    by_cases hne : cc.length ≠ 0
    · rw [if_pos hne]
      intro x hx
      rcases List.mem_append.mp hx with hx | hx
      · exact hchunks x hx
      · rw [List.mem_singleton.mp hx, countFence_wrapCodeBlock cc lang hcc hlang]
        exact ⟨1, rfl⟩
    · rw [if_neg hne]
      exact hchunks
  | cons line rest ih =>
    intro cc chunks out hlines hcc hchunks h
    have hline : noFence line := hlines line (by simp)
    have hrest : ∀ l ∈ rest, noFence l := fun l hl => hlines l (by simp [hl])
    rw [splitCodeCore] at h
    by_cases hbig : (line.length : Int) > cm
    · rw [if_pos hbig] at h
      cases hw : wrapLongLineAux fuel line cm [] with
      | none => rw [hw] at h; cases h
      | some wrapped =>
        rw [hw] at h
        refine ih [] _ out hrest (by intro hi; exact absurd hi.length_le (by simp [fence3]))
          ?_ h
        intro x hx
        rcases List.mem_append.mp hx with hx | hx
        · by_cases hne : cc.length ≠ 0
          · rw [if_pos hne] at hx
            rcases List.mem_append.mp hx with hx | hx
            · exact hchunks x hx
            · rw [List.mem_singleton.mp hx, countFence_wrapCodeBlock cc lang hcc hlang]
              exact ⟨1, rfl⟩
          · rw [if_neg hne] at hx
            exact hchunks x hx
        · obtain ⟨w, hwmem, hweq⟩ := List.mem_map.mp hx
          have hwnf := wrapLongLineAux_noFence fuel line cm [] wrapped hline (by simp) hw
            w hwmem
          rw [← hweq, countFence_wrapCodeBlock w lang hwnf hlang]
          exact ⟨1, rfl⟩
    · rw [if_neg hbig] at h
      by_cases hfit : (cc.length : Int) + line.length + 1 > cm
      · rw [if_pos hfit] at h
        refine ih line _ out hrest hline ?_ h
        intro x hx
        rcases List.mem_append.mp hx with hx | hx
        · exact hchunks x hx
        · rw [List.mem_singleton.mp hx, countFence_wrapCodeBlock cc lang hcc hlang]
          exact ⟨1, rfl⟩
      · rw [if_neg hfit] at h
        refine ih _ _ out hrest ?_ hchunks h
        by_cases hne : cc.length ≠ 0
        · rw [if_pos hne]
          refine noFence_of_countFence_zero _ ?_
          rw [List.append_assoc]
          rw [show ([nlChar] ++ line : Str) = nlChar :: line from rfl]
          rw [countFence_append_sep cc nlChar line hcc (by decide)]
          exact countFence_eq_zero_of_noFence line hline
        · rw [if_neg hne]
          have hcc0 : cc = [] := by
            simpa using hne
          rw [hcc0, List.nil_append, List.nil_append]
          exact hline


theorem takeWhile_append_fence (interior : Str) :
    (interior ++ fence3).takeWhile isWordChar = interior.takeWhile isWordChar := by
  rw [List.takeWhile_append]
  by_cases hc : (interior.takeWhile isWordChar).length = interior.length
  · rw [if_pos hc, (List.takeWhile_prefix _).eq_of_length hc]
    rw [show fence3.takeWhile isWordChar = ([] : Str) from by decide]
    rw [List.append_nil]
  · rw [if_neg hc]

theorem take_strip_fence (mm : Str) :
    (mm ++ fence3).take ((mm ++ fence3).length - 3) = mm := by
  rw [List.length_append, show (fence3 : Str).length = 3 from rfl]
  rw [show mm.length + 3 - 3 = mm.length from by omega]
  exact List.take_left' rfl

theorem jsCodeBlockMatch_eq (s : Str) (h : fence3.isPrefixOf s = true) :
    jsCodeBlockMatch s =
      (let r := s.drop 3
       let language := r.takeWhile isWordChar
       let r2 := r.drop language.length
       let r3 := match r2 with
         | c :: rest => if c = nlChar then rest else r2
         | [] => r2
       if fence3.isSuffixOf r3 then some (language, r3.take (r3.length - 3))
       else none) := by
  rw [jsCodeBlockMatch, if_pos h]

theorem jsCodeBlockMatch_block (interior : Str) (hnf : noFence interior) :
    ∃ language content,
      jsCodeBlockMatch (fence3 ++ interior ++ fence3) = some (language, content) ∧
      (∀ x ∈ language, isWordChar x = true) ∧ noFence content := by
  have hpre : fence3.isPrefixOf (fence3 ++ interior ++ fence3) = true :=
    List.isPrefixOf_iff_prefix.mpr
      (by rw [List.append_assoc]; exact List.prefix_append _ _)
  have hdrop : (fence3 ++ interior ++ fence3).drop 3 = interior ++ fence3 := by
    rw [List.append_assoc]
    exact List.drop_left' rfl
  have hlanglem : ∀ x ∈ interior.takeWhile isWordChar, isWordChar x = true :=
    fun x hx => List.mem_takeWhile_imp hx
  rw [jsCodeBlockMatch_eq _ hpre]
  dsimp only
  rw [hdrop, takeWhile_append_fence interior,
    List.drop_append_of_le_length (List.takeWhile_prefix isWordChar).length_le]
  generalize hmid : interior.drop (interior.takeWhile isWordChar).length = mid
  have hmidsuf : mid <:+ interior := hmid ▸ List.drop_suffix _ interior
  cases mid with
  | nil =>
    rw [List.nil_append]
    rw [show (fence3 : Str) = btChar :: btChar :: btChar :: [] from rfl]
    dsimp only
    rw [if_neg (by decide : ¬ btChar = nlChar)]
    rw [if_pos (by decide :
      (([btChar, btChar, btChar] : Str).isSuffixOf [btChar, btChar, btChar]) = true)]
    refine ⟨interior.takeWhile isWordChar, _, rfl, hlanglem, ?_⟩
    intro hi
    have := hi.length_le
    simp [fence3] at this
  | cons c mid2 =>
    rw [List.cons_append]
    dsimp only
    by_cases hc : c = nlChar
    · rw [if_pos hc]
      rw [if_pos (List.isSuffixOf_iff_suffix.mpr (List.suffix_append mid2 fence3)),
        take_strip_fence]
      refine ⟨interior.takeWhile isWordChar, mid2, rfl, hlanglem, ?_⟩
      refine noFence_mono mid2 interior ?_ hnf
      exact ((List.suffix_cons c mid2).trans hmidsuf).isInfix
    · rw [if_neg hc]
      rw [show (c :: (mid2 ++ fence3) : Str) = (c :: mid2) ++ fence3 from rfl]
      rw [if_pos (List.isSuffixOf_iff_suffix.mpr (List.suffix_append (c :: mid2) fence3)),
        take_strip_fence]
      refine ⟨interior.takeWhile isWordChar, c :: mid2, rfl, hlanglem, ?_⟩
      exact noFence_mono _ interior hmidsuf.isInfix hnf

theorem splitLongCodeBlock_even_block (fuel : Nat) (interior : Str) (m : Int)
    (out : List Str) (hnf : noFence interior)
    (h : splitLongCodeBlock fuel (fence3 ++ interior ++ fence3) m = some out) :
    ∀ x ∈ out, Even (countFence x) := by
  obtain ⟨lang, content, hmatch, hlang, hcontent⟩ := jsCodeBlockMatch_block interior hnf
  rw [splitLongCodeBlock, hmatch] at h
  exact splitCodeCore_even fuel lang _ hlang (content.splitOn nlChar) [] [] out
    (splitOn_noFence content hcontent)
    (by intro hi; exact absurd hi.length_le (by simp [fence3]))
    (by simp) h

theorem chunkWithCodeBlocksAux_even (fuel : Nat) (m : Int) :
    ∀ (segs ccL : List Str) (cc : Str) (chunks out : List Str),
      ChainOk (ccL ++ segs) → cc = ccL.flatten →
      (∀ x ∈ chunks, Even (countFence x)) →
      chunkWithCodeBlocksAux fuel m segs cc chunks = some out →
      ∀ x ∈ out, Even (countFence x) := by
  intro segs
  induction segs with
  | nil =>
    intro ccL cc chunks out hchain hcc hchunks h
    rw [chunkWithCodeBlocksAux] at h
    cases h
    by_cases hne : (trim cc).length ≠ 0
    · rw [if_pos hne]
      intro x hx
      rcases List.mem_append.mp hx with hx | hx
      · exact hchunks x hx
      · rw [List.mem_singleton.mp hx, countFence_trim, hcc]
        exact ChainOk_flatten_even ccL (by simpa using hchain)
    · rw [if_neg hne]
      exact hchunks
  | cons seg rest ih =>
    intro ccL cc chunks out hchain hcc hchunks h
    have hchain2 : ChainOk (seg :: rest) := ChainOk_suffix ccL _ hchain
    rw [chunkWithCodeBlocksAux] at h
    by_cases hbig : (seg.length : Int) > m
    · rw [if_pos hbig] at h
      have hchunks1 : ∀ x ∈ (if cc.length ≠ 0 then chunks ++ [trim cc] else chunks),
          Even (countFence x) := by
        intro x hx
        by_cases hne : cc.length ≠ 0
        · rw [if_pos hne] at hx
          rcases List.mem_append.mp hx with hx | hx
          · exact hchunks x hx
          · rw [List.mem_singleton.mp hx, countFence_trim, hcc]
            exact ChainOk_flatten_even ccL (ChainOk_take ccL _ hchain)
        · rw [if_neg hne] at hx
          exact hchunks x hx
      obtain ⟨hrest, hshape⟩ := ChainOk_cons_elim seg rest hchain2
      rcases hshape with ⟨interior, hseg, hinf, _⟩ | ⟨hnfseg, _⟩
      · have hpre : fence3.isPrefixOf seg = true := by
          rw [hseg]
          exact List.isPrefixOf_iff_prefix.mpr
            (by rw [List.append_assoc]; exact List.prefix_append _ _)
        rw [if_pos hpre] at h
        cases hsub : splitLongCodeBlock fuel seg m with
        | none => rw [hsub] at h; cases h
        | some sub =>
          rw [hsub] at h
          refine ih [] _ _ out (by simpa using hrest) (by simp) ?_ h
          intro x hx
          rcases List.mem_append.mp hx with hx | hx
          · exact hchunks1 x hx
          · rw [hseg] at hsub
            exact splitLongCodeBlock_even_block fuel interior m sub hinf hsub x hx
      · have hpre : ¬ fence3.isPrefixOf seg = true := by
          intro hp
          exact hnfseg (List.isPrefixOf_iff_prefix.mp hp).isInfix
        rw [if_neg hpre] at h
        cases hsub : chunkPlainText fuel seg m with
        | none => rw [hsub] at h; cases h
        | some sub =>
          rw [hsub] at h
          refine ih [] _ _ out (by simpa using hrest) (by simp) ?_ h
          intro x hx
          rcases List.mem_append.mp hx with hx | hx
          · exact hchunks1 x hx
          · rw [countFence_eq_zero_of_noFence x
              (chunkPlainText_noFence fuel seg m sub hnfseg hsub x hx)]
            exact ⟨0, rfl⟩
    · rw [if_neg hbig] at h
      by_cases hfit : (cc.length : Int) + seg.length > m
      · rw [if_pos hfit] at h
        refine ih [seg] _ _ out (by simpa using hchain2) (by simp) ?_ h
        intro x hx
        rcases List.mem_append.mp hx with hx | hx
        · exact hchunks x hx
        · rw [List.mem_singleton.mp hx, countFence_trim, hcc]
          exact ChainOk_flatten_even ccL (ChainOk_take ccL _ hchain)
      · rw [if_neg hfit] at h
        refine ih (ccL ++ [seg]) _ _ out ?_ ?_ hchunks h
        · rw [List.append_assoc]
          simpa using hchain
        · rw [hcc]
          simp

/-- C2: whenever the chunking engine returns on an input whose number of
(non-overlapping) triple-backtick fence markers is even — in particular on
any text made of properly closed code blocks — every emitted fragment again
has an even number of fence markers, so no fragment is left with an
unterminated fence. -/
theorem chunkMessage_fence_safe (fuel : Nat) (t : Str) (m : Int) (l : List Str)
    (ht : Even (countFence t)) (h : chunkMessage fuel t m = some l) :
    ∀ c ∈ l, Even (countFence c) := by
  rw [chunkMessage] at h
  by_cases h1 : (t.length : Int) ≤ m
  · rw [if_pos h1] at h
    cases h
    intro c hc
    rw [List.mem_singleton.mp hc]
    exact ht
  · rw [if_neg h1] at h
    by_cases h2 : containsFence t = true
    · rw [h2] at h
      simp only [if_true] at h
      rw [chunkWithCodeBlocks] at h
      cases haux : chunkWithCodeBlocksAux fuel m (splitByCodeBlocks t) [] [] with
      | none => rw [haux] at h; cases h
      | some cs =>
        rw [haux] at h
        cases h
        intro c hc
        exact chunkWithCodeBlocksAux_even fuel m (splitByCodeBlocks t) [] [] [] cs
          (by simpa using splitByCodeBlocks_chain t ht) rfl (by simp) haux c
          (List.mem_filter.mp hc).1
    · rw [eq_false_of_ne_true h2] at h
      simp only [Bool.false_eq_true, if_false] at h
      have hnone : findFence t = none := by
        cases hf : findFence t with
        | none => rfl
        | some i => exact absurd (by rw [containsFence, hf]; rfl) h2
      have hnf : noFence t :=
        (noFence_iff_forall_drop t).mpr (findFence_none_spec t hnone)
      intro c hc
      rw [countFence_eq_zero_of_noFence c
        (chunkPlainText_noFence fuel t m l hnf h c hc)]
      exact ⟨0, rfl⟩

/-- Witness for C2: a concrete over-length fenced input with an even fence
count chunks into fragments that all have an even fence count. -/
theorem chunkMessage_fence_safe_witness :
    Even (countFence fencedT) ∧ Even (countFence ("```python\n\n```".toList : Str)) :=
  ⟨by decide,
    chunkMessage_fence_safe 100 fencedT 30
      ["```python\n\n```".toList, "```python\nline one is here\n```".toList,
       "```python\nline two is here\n```".toList, "```python\nline three is\n```".toList,
       "```python\nhere\n```".toList]
      (by decide) (by decide) _ (by decide)⟩

end Bridge
